import Mathlib

/-!
# Shamir secret reconstruction: `src/src/main.cpp`

A shallow embedding of the arbitrary-precision integer `BigInt` (base `10^9`,
sign and little-endian limbs), of the radix decoder `decodeInBase`, and of the
Lagrange interpolation at `x = 0` (`interpolate_constant_term`), followed by
theorems about them.

Conventions of the embedding:

* `long long` values are integers reduced with `wrapI64` (two's complement),
  `unsigned long long` values are integers reduced with `toU64`, and `int` limbs
  written through an `(int)` cast are reduced with `wrapI32`;
* `std::vector<int>` is a `List Int`, least-significant limb first;
* `assert` failures and the `std::length_error` of `vector::resize` are the
  errors of an `Except` result;
* loops over the limbs are structural recursions over the list of limbs.
-/

namespace Shamir

/-! ## Machine integers -/

/-- Value of `BigInt::BASE`. -/
def BASE : Int := 1000000000

/-- Reduction of an integer to the range of `long long` (two's complement). -/
def wrapI64 (v : Int) : Int := (v + 9223372036854775808) % 18446744073709551616 - 9223372036854775808

/-- Reduction of an integer to the range of `unsigned long long`. -/
def toU64 (v : Int) : Int := v % 18446744073709551616

/-- Reduction of an integer to the range of `int` (the `(int)` casts). -/
def wrapI32 (v : Int) : Int := (v + 2147483648) % 4294967296 - 2147483648

/-! ## BigInt -/

/-- The `struct BigInt`: `sign` and the limbs `a`, least significant first. -/
structure BigInt where
  sign : Int
  a : List Int
deriving DecidableEq, Repr

/-- Failures of the program. -/
inductive Failure where
  /-- the `assert(d > 0)` of `divInt` does not hold -/
  | assertion
  /-- `vector::resize` called with a negative count converted to `size_t` -/
  | lengthError
  /-- `main` found fewer points than `k` -/
  | pointsLessThanK
deriving DecidableEq, Repr

deriving instance DecidableEq for Except

namespace BigInt

/-- Default constructor `BigInt()`: sign 0, no limbs. -/
def zero : BigInt := ⟨0, []⟩

/-- The loop `while (x) { a.push_back((int)(x % BASE)); x /= BASE; }` on an
unsigned value `x`. The first argument bounds the number of iterations; the
callers pass `x` itself, which is enough since `x / BASE < x` for `0 < x`. -/
def pushLimbs : Nat → Int → List Int
  | 0, _ => []
  | fuel + 1, x => if x = 0 then [] else wrapI32 (x % BASE) :: pushLimbs fuel (x / BASE)

/-- The assignment `operator=(long long v)`, which is also `BigInt(long long v)`. -/
def ofInt64 (v : Int) : BigInt :=
  if v = 0 then ⟨0, []⟩
  else
    let x := toU64 (if v < 0 then wrapI64 (-v) else v)
    ⟨if v < 0 then -1 else 1, pushLimbs x.toNat x⟩

/-- Member `isZero`. -/
def isZero (A : BigInt) : Bool := A.sign == 0

/-- The loop of `trim` on the limbs: pop the most significant zero limbs. -/
def trimLimbs (l : List Int) : List Int := l.rdropWhile (fun x => x == 0)

/-- Member `trim`. -/
def trim (A : BigInt) : BigInt :=
  let l := trimLimbs A.a
  ⟨if l.isEmpty then 0 else A.sign, l⟩

/-- The loop of `cmpAbs`, on the limbs from the most significant one down. -/
def cmpFromTop : List Int → List Int → Int
  | x :: xs, y :: ys => if x ≠ y then (if x < y then -1 else 1) else cmpFromTop xs ys
  | _, _ => 0

/-- Static member `cmpAbs`. -/
def cmpAbs (A B : BigInt) : Int :=
  if A.a.length ≠ B.a.length then (if A.a.length < B.a.length then -1 else 1)
  else cmpFromTop A.a.reverse B.a.reverse

/-- One iteration of the loop of `addAbs`: from `cur` (carry plus the limbs
present at this index) to the limb written and the next carry. -/
def addStep (cur : Int) : Int × Bool :=
  let carry := decide (cur ≥ BASE)
  (wrapI32 (if carry then cur - BASE else cur), carry)

/-- The loop of `addAbs` from an index on where only one operand has limbs
left: those limbs and the carry (0 or 1, held as a Boolean as in
`carry = (int)(cur >= BASE)`). The loop runs while limbs remain or the carry is
set; with no limb left and the carry set, `cur` is 1. -/
def addCarry : List Int → Bool → List Int
  | [], carry => if carry then [(addStep 1).1] else []
  | x :: xs, carry =>
      let s := addStep ((if carry then 1 else 0) + x)
      s.1 :: addCarry xs s.2

/-- The loop of `addAbs` from some index on: the remaining limbs of `A`, the
remaining limbs of `B` and the carry. -/
def addLoop : List Int → List Int → Bool → List Int
  | [], ys, carry => addCarry ys carry
  | x :: xs, [], carry => addCarry (x :: xs) carry
  | x :: xs, y :: ys, carry =>
      let s := addStep ((if carry then 1 else 0) + x + y)
      s.1 :: addLoop xs ys s.2

/-- Static member `addAbs`. -/
def addAbs (A B : BigInt) : BigInt :=
  trim ⟨1, addLoop A.a B.a false⟩

/-- One iteration of the loop of `subAbs`. -/
def subStep (cur : Int) : Int × Bool :=
  let carry := decide (cur < 0)
  (wrapI32 (if carry then cur + BASE else cur), carry)

/-- The loop of `subAbs` from some index on: the remaining limbs of `res.a`
(a copy of `A.a`), the remaining limbs of `B` and the borrow. The loop stops
when `B` is exhausted and no borrow is pending, leaving the other limbs as they
are. Reading `res.a[i]` past the end is undefined in the source (it needs
`|A| < |B|`, which `operator+` excludes); the embedding stops there. -/
def subLoop : List Int → List Int → Bool → List Int
  | [], _, _ => []
  | x :: xs, [], carry =>
      if carry then
        let s := subStep (x - 0 - 1)
        s.1 :: subLoop xs [] s.2
      else x :: xs
  | x :: xs, y :: ys, carry =>
      let s := subStep (x - y - (if carry then 1 else 0))
      s.1 :: subLoop xs ys s.2

/-- Static member `subAbs`. -/
def subAbs (A B : BigInt) : BigInt :=
  trim ⟨1, subLoop A.a B.a false⟩

/-- Unary `operator-`. -/
def neg (A : BigInt) : BigInt :=
  if !A.isZero then ⟨-A.sign, A.a⟩ else A

/-- The lines `r.sign = s; if (r.isZero()) r.sign = 0;` of `operator+`. -/
def withSign (r : BigInt) (s : Int) : BigInt :=
  let r1 : BigInt := ⟨s, r.a⟩
  if r1.isZero then ⟨0, r1.a⟩ else r1

/-- Binary `operator+`. -/
def add (A v : BigInt) : BigInt :=
  if A.isZero then v
  else if v.isZero then A
  else if A.sign = v.sign then withSign (addAbs A v) A.sign
  else
    let cmp := cmpAbs A v
    if cmp = 0 then ofInt64 0
    else if cmp > 0 then withSign (subAbs A v) A.sign
    else withSign (subAbs v A) v.sign

/-- Binary `operator-`. -/
def sub (A v : BigInt) : BigInt := add A (neg v)

/-- The first loop of `mulInt`, over the limbs of `a`, followed by the loop
`while (carry)` that appends the limbs of the last carry. All arithmetic is
`unsigned long long`. -/
def mulLoop (mm : Int) : List Int → Int → List Int
  | [], carry => pushLimbs carry.toNat carry
  | x :: xs, carry =>
      let cur := toU64 (carry + toU64 (toU64 x * mm))
      wrapI32 (cur % BASE) :: mulLoop mm xs (cur / BASE)

/-- Member `mulInt`. -/
def mulInt (A : BigInt) (m : Int) : BigInt :=
  if m = 0 ∨ A.isZero then ofInt64 0
  else
    let sign := if A.sign = 0 then 0 else (if m < 0 then -A.sign else A.sign)
    let mm := toU64 (if m < 0 then wrapI64 (-m) else m)
    trim ⟨sign, mulLoop mm A.a 0⟩

/-- The loop of `divInt`, over the limbs from the most significant one down:
the quotient limbs (most significant first) and the last remainder. All
arithmetic is `unsigned long long`. -/
def divLoop (dd : Int) : List Int → Int → List Int × Int
  | [], rem => ([], rem)
  | x :: xs, rem =>
      let cur := toU64 (toU64 x + toU64 (rem * toU64 BASE))
      let r := divLoop dd xs (cur % dd)
      (wrapI32 (cur / dd) :: r.1, r.2)

/-- Member `divInt` with its remainder output: quotient and `*remainder_out`. -/
def divIntRem (A : BigInt) (d : Int) : Except Failure (BigInt × Int) :=
  if ¬ (d > 0) then Except.error Failure.assertion
  else if A.isZero then Except.ok (ofInt64 0, 0)
  else
    let r := divLoop (toU64 d) A.a.reverse 0
    Except.ok (trim ⟨A.sign, r.1.reverse⟩, wrapI64 r.2)

/-- Member `divInt` called without a remainder pointer. -/
def divInt (A : BigInt) (d : Int) : Except Failure BigInt :=
  (divIntRem A d).map Prod.fst

/-- Member `addInt`. -/
def addInt (A : BigInt) (v : Int) : BigInt := add A (ofInt64 v)

/-- The library function `std::to_string` on an `int`: its decimal numeral. -/
def intToString (v : Int) : String :=
  if v < 0 then "-" ++ Nat.repr (-v).toNat else Nat.repr v.toNat

/-- One iteration of the loop of `toString`: the block of a limb, padded with
zeros on the left to 9 characters. -/
def padBlock (v : Int) : String :=
  let block := intToString v
  if block.length < 9 then String.mk (List.replicate (9 - block.length) '0') ++ block
  else block

/-- Member `toString`. With a non-zero sign and no limb the source reads
`a[-1]`, which is undefined; the embedding stops after the sign there. -/
def toString (A : BigInt) : String :=
  if A.sign = 0 then "0"
  else
    let s := if A.sign < 0 then "-" else ""
    match A.a.reverse with
    | [] => s
    | top :: rest => rest.foldl (fun acc v => acc ++ padBlock v) (s ++ intToString top)

end BigInt

/-! ## Radix decoder -/

/-- Function `charToVal`. -/
def charToVal (c : Char) : Int :=
  if '0'.toNat ≤ c.toNat ∧ c.toNat ≤ '9'.toNat then (c.toNat : Int) - ('0'.toNat : Int)
  else if 'a'.toNat ≤ c.toNat ∧ c.toNat ≤ 'z'.toNat then 10 + ((c.toNat : Int) - ('a'.toNat : Int))
  else if 'A'.toNat ≤ c.toNat ∧ c.toNat ≤ 'Z'.toNat then 10 + ((c.toNat : Int) - ('A'.toNat : Int))
  else -1

/-- The loop of `decodeInBase` over the characters, from the accumulator `res`. -/
def decodeLoop (base : Int) : List Char → BigInt → BigInt
  | [], res => res
  | c :: cs, res =>
      let d := charToVal c
      if d < 0 ∨ d ≥ base then decodeLoop base cs res
      else decodeLoop base cs ((res.mulInt base).addInt d)

/-- Function `decodeInBase`; `base` is an `int` and the string is its list of
characters (a byte outside ASCII is no digit for `charToVal`, and no character
outside ASCII is one here). -/
def decodeInBase (s : List Char) (base : Int) : BigInt :=
  decodeLoop base s (BigInt.ofInt64 0)

/-! ## Interpolation -/

/-- The `struct Point`. -/
structure Point where
  x : Int
  y : BigInt
deriving DecidableEq, Repr

/-- A value-initialised `Point`, as appended by `vector::resize`. -/
def Point.default : Point := ⟨0, BigInt.zero⟩

/-- Order in which `std::sort` with the comparator `a.x < b.x` leaves the
points: no point is followed by one of smaller `x`. -/
def Point.le (p q : Point) : Prop := p.x ≤ q.x

instance : DecidableRel Point.le := fun p q => inferInstanceAs (Decidable (p.x ≤ q.x))

instance : IsTotal Point Point.le := ⟨fun p q => Int.le_total p.x q.x⟩

instance : IsTrans Point Point.le := ⟨fun _ _ _ h1 h2 => Int.le_trans h1 h2⟩

/-- The call of `std::sort`: the points in ascending `x`. (For points of equal
`x` the order chosen by `std::sort` is unspecified; the embedding keeps their
input order.) -/
def sortByX (points : List Point) : List Point := points.insertionSort Point.le

/-- The call `points.resize(k)` with `k` an `int` converted to `size_t`. -/
def resize (points : List Point) (k : Int) : Except Failure (List Point) :=
  if k < 0 then Except.error Failure.lengthError
  else Except.ok (points.take k.toNat ++ List.replicate (k.toNat - points.length) Point.default)

/-- The inner loop over `j` of `interpolate_constant_term`, from index `j` on:
`i` and `xi = points[i].x` are fixed, the list holds `points[j], ...`, and the
pair is `(num, den)`. -/
def coeffLoop (i : Nat) (xi : Int) : Nat → List Point → Int × Int → Int × Int
  | _, [], nd => nd
  | j, p :: ps, nd =>
      if j = i then coeffLoop i xi (j + 1) ps nd
      else coeffLoop i xi (j + 1) ps
        (wrapI64 (nd.1 * wrapI64 (-p.x)), wrapI64 (nd.2 * wrapI64 (xi - p.x)))

/-- The body of the outer loop after `num` and `den` are known: the term added
to `ans`. -/
def termOf (y : BigInt) (num den : Int) : Except Failure BigInt :=
  let term := y.mulInt num
  if den < 0 then (term.mulInt (-1)).divInt (wrapI64 (-den))
  else term.divInt den

/-- The outer loop over `i` of `interpolate_constant_term`, from index `i` on:
`pts` are the `k` selected points, the list holds `points[i], ...`. -/
def outerLoop (pts : List Point) : Nat → List Point → BigInt → Except Failure BigInt
  | _, [], ans => Except.ok ans
  | i, p :: ps, ans =>
      let nd := coeffLoop i p.x 0 pts (1, 1)
      match termOf p.y nd.1 nd.2 with
      | Except.error e => Except.error e
      | Except.ok term => outerLoop pts (i + 1) ps (ans.add term)

/-- Function `interpolate_constant_term`. -/
def interpolate_constant_term (points : List Point) (k : Int) : Except Failure BigInt :=
  match resize (sortByX points) k with
  | Except.error e => Except.error e
  | Except.ok pts => outerLoop pts 0 pts (BigInt.ofInt64 0)

/-- The steps of `main` for one input, once the points and `k` are parsed:
the check of the number of points, then the interpolation. -/
def mainStep (points : List Point) (k : Int) : Except Failure BigInt :=
  if (points.length : Int) < k then Except.error Failure.pointsLessThanK
  else interpolate_constant_term points k

/-! ## Reading a BigInt -/

/-- Value of a list of limbs, least significant first. -/
def limbsVal : List Int → Int
  | [] => 0
  | x :: xs => x + BASE * limbsVal xs

/-- Integer denoted by a BigInt. -/
def BigInt.toInt (A : BigInt) : Int := A.sign * limbsVal A.a

/-- Canonical form: sign in -1, 0, 1; limbs in `[0, BASE)`; most significant
limb not zero; sign 0 exactly when there is no limb. -/
def BigInt.Canonical (A : BigInt) : Prop :=
  (A.sign = -1 ∨ A.sign = 0 ∨ A.sign = 1) ∧ (∀ x ∈ A.a, 0 ≤ x ∧ x < BASE) ∧
  A.a.getLast? ≠ some 0 ∧ (A.sign = 0 ↔ A.a = [])

instance (A : BigInt) : Decidable A.Canonical := by
  unfold BigInt.Canonical; infer_instance

/-- Limbs in the range of a digit of base `BASE`. -/
def LimbsOk (l : List Int) : Prop := ∀ x ∈ l, 0 ≤ x ∧ x < BASE

/-- Value at `x` of the polynomial with the coefficients `c0, c1, ...`. -/
def polyEval : List Int → Int → Int
  | [], _ => 0
  | c :: cs, x => c + x * polyEval cs x

/-- The point `(x, y)` with `y` built by `BigInt(long long)`. -/
def mkPoint (x y : Int) : Point := ⟨x, BigInt.ofInt64 y⟩

/-- The list `S` is the `k` points of smallest `x` of `points`, in ascending
`x`: it has `k` points, of strictly ascending `x`, and `points` is a
rearrangement of `S` followed by points whose `x` is larger than every `x` of
`S`. -/
def IsLowestK (S points : List Point) (k : Nat) : Prop :=
  S.length = k ∧ S.Pairwise (fun p q => p.x < q.x) ∧
    ∃ rest, (S ++ rest).Perm points ∧ ∀ p ∈ S, ∀ q ∈ rest, p.x < q.x

/-- The digits of the specification in lower case, in the order of their
values 0 to 35. -/
def lowerDigits : List Char := "0123456789abcdefghijklmnopqrstuvwxyz".toList

/-- The digits of the specification in upper case, in the order of their
values 0 to 35. -/
def upperDigits : List Char := "0123456789ABCDEFGHIJKLMNOPQRSTUVWXYZ".toList

/-- Digit value of a character in the words of the specification: '0'-'9' are
0-9, 'a'-'z' and 'A'-'Z' are 10-35, and no other character is a digit. -/
def digitValue (c : Char) : Option Nat :=
  if c ∈ lowerDigits then some (lowerDigits.indexOf c)
  else if c ∈ upperDigits then some (upperDigits.indexOf c)
  else none

/-- A character counts in base `b` when it is a digit of value less than `b`. -/
def countsIn (b : Int) (c : Char) : Bool :=
  match digitValue c with
  | some d => decide ((d : Int) < b)
  | none => false

/-- The digit values of the characters of `s` that count in base `b`, in the
order of `s`. -/
def validDigits (b : Int) (s : List Char) : List Nat :=
  (s.filter (countsIn b)).filterMap digitValue

/-- Positional value of a sequence of digits, most significant first:
`acc = acc * b + digit` from left to right, starting at 0. -/
def positional (b : Int) (ds : List Nat) : Int :=
  ds.foldl (fun (acc : Int) (d : Nat) => acc * b + (d : Int)) 0

/-- The standard base-`b` numeral of `v`, most significant digit first, over
the digits 0-9 then a-z (or A-Z when `upper` is set); "0" for zero. -/
def encode (upper : Bool) (v b : Nat) : List Char :=
  if v = 0 then ['0']
  else (Nat.digits b v).reverse.map
    (fun d => (if upper then upperDigits else lowerDigits).getD d '0')

/-- The body of the outer loop together with the remainder that `divInt`
computes in its local `rem`: as `termOf`, through `divIntRem`. -/
def termOfRem (y : BigInt) (num den : Int) : Except Failure (BigInt × Int) :=
  let term := y.mulInt num
  if den < 0 then (term.mulInt (-1)).divIntRem (wrapI64 (-den))
  else term.divIntRem den

/-- The product that the inner loop accumulates in a `long long`: from `a`,
`acc *= f` for each factor `f`, itself a `long long`. -/
def wrapProd (a : Int) (fs : List Int) : Int :=
  fs.foldl (fun acc f => wrapI64 (acc * wrapI64 f)) a

/-- The factors `-x_j`, `j ≠ i`, of numerator_i, in the order of the list. -/
def numFactors (xs : List Int) (i : Nat) : List Int :=
  (xs.eraseIdx i).map (fun x => -x)

/-- The factors `x_i - x_j`, `j ≠ i`, of denominator_i, in the order of the
list. -/
def denFactors (xs : List Int) (i : Nat) : List Int :=
  (xs.eraseIdx i).map (fun x => xs.getD i 0 - x)

/-- Product of a list of integers. -/
def prodList (fs : List Int) : Int := fs.foldl (fun acc f => acc * f) 1

/-- The partial products formed while multiplying the factors from left to
right, the initial 1 and the final product included. -/
def partialProducts (fs : List Int) : List Int := fs.scanl (fun acc f => acc * f) 1

/-- The term of index `i` of the Lagrange form at 0 for the points `pts`:
`y_i * numerator_i / denominator_i`. -/
def lagrangeTerm (pts : List Point) (i : Nat) : Int :=
  (pts.map (fun p => p.y.toInt)).getD i 0 * prodList (numFactors (pts.map Point.x) i)
    / prodList (denFactors (pts.map Point.x) i)

/-- The sum over `i` of `y_i * numerator_i / denominator_i`: the value at 0 of
the Lagrange form through the points when every division is exact. -/
def lagrangeAtZero (pts : List Point) : Int :=
  ((List.range pts.length).map (lagrangeTerm pts)).sum

/-- The sum over `i = 1..k` of `(-1)^(i+1) * C(k, i) * y_i` for the values
`y_1, ..., y_k`. -/
def binomialSum (ys : List Int) : Int :=
  ((List.range ys.length).map
    (fun i => (-1) ^ i * (Nat.choose ys.length (i + 1) : Int) * ys.getD i 0)).sum

/-- The points `(1, y_1), ..., (k, y_k)`. -/
def indexedPoints (ys : List BigInt) : List Point :=
  ys.enum.map (fun iy => ⟨(iy.1 : Int) + 1, iy.2⟩)

/-- The values `1, 2, ..., k` of `x` of the points `(1, y_1), ..., (k, y_k)`. -/
def xsUpTo (k : Nat) : List Int := (List.range' 1 k).map (fun (n : Nat) => (n : Int))

/-- The standard decimal numeral of an integer: "-" for a negative value, then
the decimal digits of the absolute value with no leading zero ("0" for 0). -/
def decimalNumeral (v : Int) : String :=
  (if v < 0 then "-" else "") ++ String.mk (encode false v.natAbs 10)

/-- Reading a string as a decimal integer: the sign from a leading "-", the
value from the decimal digits. -/
def readDecimal (s : String) : Int :=
  (if s.data.head? = some '-' then -1 else 1) * positional 10 (validDigits 10 s.data)

/-! ## Machine integers and limbs: shared lemmas -/

theorem wrapI32_of_limb {x : Int} (h0 : 0 ≤ x) (h1 : x < BASE) : wrapI32 x = x := by
  unfold wrapI32; unfold BASE at h1; omega

theorem toU64_of_limb {x : Int} (h0 : 0 ≤ x) (h1 : x < BASE) : toU64 x = x := by
  unfold toU64; unfold BASE at h1; omega

theorem limbsOk_cons {x : Int} {l : List Int} :
    LimbsOk (x :: l) ↔ (0 ≤ x ∧ x < BASE) ∧ LimbsOk l := by
  simp [LimbsOk]

theorem trimLimbs_of_top {l : List Int} (h : l.getLast? ≠ some 0) :
    BigInt.trimLimbs l = l := by
  unfold BigInt.trimLimbs
  rw [List.rdropWhile_eq_self_iff]
  intro hl
  rw [List.getLast?_eq_getLast _ hl] at h
  simpa using h

theorem trim_of_canonical {A : BigInt} (h : A.Canonical) : A.trim = A := by
  obtain ⟨_, _, h3, h4⟩ := h
  unfold BigInt.trim
  rw [trimLimbs_of_top h3]
  cases A with
  | mk s l =>
    cases l with
    | nil =>
      have hs : s = 0 := h4.2 rfl
      simp [hs]
    | cons x t => simp

theorem mulLoop_one : ∀ l : List Int, LimbsOk l → BigInt.mulLoop 1 l 0 = l := by
  intro l
  induction l with
  | nil => intro _; rfl
  | cons x t ih =>
    intro h
    rw [limbsOk_cons] at h
    have hx : toU64 (0 + toU64 (toU64 x * 1)) = x := by
      unfold toU64; have := h.1; unfold BASE at this; omega
    have h1 : x % BASE = x := by have := h.1; unfold BASE at *; omega
    have h2 : x / BASE = 0 := by have := h.1; unfold BASE at *; omega
    simp only [BigInt.mulLoop, hx, h1, h2, ih h.2, wrapI32_of_limb h.1.1 h.1.2]

theorem divLoop_one : ∀ l : List Int, LimbsOk l → BigInt.divLoop 1 l 0 = (l, 0) := by
  intro l
  induction l with
  | nil => intro _; rfl
  | cons x t ih =>
    intro h
    rw [limbsOk_cons] at h
    have hx : toU64 (toU64 x + toU64 (0 * toU64 BASE)) = x := by
      unfold toU64; have := h.1; unfold BASE at *; omega
    simp only [BigInt.divLoop, hx, Int.emod_one, Int.ediv_one, ih h.2,
      wrapI32_of_limb h.1.1 h.1.2]

theorem mulInt_one {A : BigInt} (h : A.Canonical) : A.mulInt 1 = A := by
  have ht := trim_of_canonical h
  obtain ⟨_, h2, _, h4⟩ := h
  cases A with
  | mk s l =>
    by_cases hs : s = 0
    · have hl : l = [] := h4.1 hs
      subst hs; subst hl; rfl
    · have hz : (BigInt.mk s l).isZero = false := by simp [BigInt.isZero, hs]
      have hu : toU64 1 = 1 := by decide
      have hm : (if (1 : Int) < 0 then wrapI64 (-1) else 1) = 1 := by decide
      simp only [BigInt.mulInt, hz, hs, hm, hu, mulLoop_one l h2]
      simpa using ht

theorem divInt_one {A : BigInt} (h : A.Canonical) : A.divInt 1 = Except.ok A := by
  have ht := trim_of_canonical h
  obtain ⟨_, h2, _, h4⟩ := h
  cases A with
  | mk s l =>
    by_cases hs : s = 0
    · have hl : l = [] := h4.1 hs
      subst hs; subst hl; rfl
    · have hz : (BigInt.mk s l).isZero = false := by simp [BigInt.isZero, hs]
      have hu : toU64 1 = 1 := by decide
      have hr : LimbsOk l.reverse := fun x hx => h2 x (List.mem_reverse.mp hx)
      simp only [BigInt.divInt, BigInt.divIntRem, hz, hu, divLoop_one _ hr]
      simp [Except.map, ht]

/-! ## Interpolation: the claims -/

/-- C1: the points (1,1), (2,1), (4,1) lie on the constant polynomial 1, whose
value at 0 is 1, and `interpolate_constant_term` returns the BigInt zero for
them with k = 3: the three terms 8/3, -4/2 and 2/6 are truncated to 2, -2, 0. -/
theorem interpolate_constant_poly_truncates :
    interpolate_constant_term
        ([1, 2, 4].map (fun x => mkPoint x (polyEval [1] x))) 3 = Except.ok BigInt.zero ∧
      BigInt.zero.toInt = 0 ∧ polyEval [1] 0 = 1 := by
  decide

/-- C2 (as stated, refuted): on the points (1,5), (2,8), (3,13) with k = 3 the
result is not a BigInt of value 2. -/
theorem interpolate_scenario_not_two :
    ¬ ∃ r, interpolate_constant_term [mkPoint 1 5, mkPoint 2 8, mkPoint 3 13] 3 = Except.ok r ∧
      r.toInt = 2 := by
  have h : interpolate_constant_term [mkPoint 1 5, mkPoint 2 8, mkPoint 3 13] 3
      = Except.ok ⟨1, [4]⟩ := by decide
  rintro ⟨r, hr, hv⟩
  rw [h] at hr
  cases hr
  revert hv
  decide

/-- C2 (amended): on the points (1,5), (2,8), (3,13) with k = 3 the result is
the BigInt of value 4, printed as "4"; the three points lie on `4 + x^2`, not
on `2 + x + 2x^2`, and the points (1,5), (2,12), (3,23) of the latter give the
BigInt of value 2. -/
theorem interpolate_scenario_four :
    interpolate_constant_term [mkPoint 1 5, mkPoint 2 8, mkPoint 3 13] 3 = Except.ok ⟨1, [4]⟩ ∧
      (BigInt.mk 1 [4]).toInt = 4 ∧ (BigInt.mk 1 [4]).toString = "4" ∧
      [1, 2, 3].map (polyEval [4, 0, 1]) = [5, 8, 13] ∧
      [1, 2, 3].map (polyEval [2, 1, 2]) = [5, 12, 23] ∧
      interpolate_constant_term [mkPoint 1 5, mkPoint 2 12, mkPoint 3 23] 3
        = Except.ok ⟨1, [2]⟩ := by
  decide

/-- C3: with k = 1 and a single point (x, y), y canonical, the result is y
itself (same sign, same limbs), whatever x is. -/
theorem interpolate_single_point (x : Int) (y : BigInt) (hy : y.Canonical) :
    interpolate_constant_term [⟨x, y⟩] 1 = Except.ok y := by
  have h1 : interpolate_constant_term [⟨x, y⟩] 1
      = (match termOf y 1 1 with
        | Except.error e => Except.error e
        | Except.ok term => Except.ok ((BigInt.ofInt64 0).add term)) := rfl
  have h2 : termOf y 1 1 = Except.ok y := by
    simp only [termOf, mulInt_one hy, divInt_one hy]
    simp
  rw [h1, h2]
  rfl

/-- Witness of C3: a negative three-limb y. -/
theorem interpolate_single_point_witness :
    (BigInt.mk (-1) [5, 0, 12]).Canonical ∧
      interpolate_constant_term [⟨7, BigInt.mk (-1) [5, 0, 12]⟩] 1
        = Except.ok (BigInt.mk (-1) [5, 0, 12]) :=
  ⟨by decide, interpolate_single_point 7 _ (by decide)⟩

/-- C4: the points (1,1), (2,1), (3,1), (4,1) lie on the constant polynomial 1;
the subset with x = 1, 2, 3 gives the BigInt 1 and the subset with x = 1, 2, 4
gives the BigInt zero. -/
theorem interpolate_subsets_differ :
    interpolate_constant_term ([1, 2, 3].map (fun x => mkPoint x (polyEval [1] x))) 3
        = Except.ok ⟨1, [1]⟩ ∧
      interpolate_constant_term ([1, 2, 4].map (fun x => mkPoint x (polyEval [1] x))) 3
        = Except.ok ⟨0, []⟩ := by
  decide

/-- C6 (as stated, refuted): with no point and k = 1, `interpolate_constant_term`
returns the BigInt zero; it does not fail. -/
theorem interpolate_short_returns :
    ([] : List Point).length < 1 ∧
      interpolate_constant_term [] 1 = Except.ok BigInt.zero := by
  decide

/-- C6 (amended): the check is in `main`. With fewer points than k the step of
`main` fails with the error on the number of points and returns no BigInt;
`interpolate_constant_term` is not called. -/
theorem mainStep_insufficient (points : List Point) (k : Int)
    (h : (points.length : Int) < k) :
    mainStep points k = Except.error Failure.pointsLessThanK := by
  unfold mainStep
  simp [h]

/-- Witness of C6 (amended): one point, k = 2. -/
theorem mainStep_insufficient_witness :
    (([mkPoint 1 5] : List Point).length : Int) < 2 ∧
      mainStep [mkPoint 1 5] 2 = Except.error Failure.pointsLessThanK :=
  ⟨by decide, mainStep_insufficient [mkPoint 1 5] 2 (by decide)⟩

/-! ## Duplicate x among the selected points -/

theorem wrapI64_zero : wrapI64 0 = 0 := by decide

theorem coeffLoop_den_zero (i : Nat) (xi : Int) :
    ∀ (ps : List Point) (j : Nat) (num : Int), (coeffLoop i xi j ps (num, 0)).2 = 0 := by
  intro ps
  induction ps with
  | nil => intro j num; rfl
  | cons p ps ih =>
    intro j num
    unfold coeffLoop
    by_cases hj : j = i
    · simp only [hj, if_true]
      exact ih _ _
    · simp only [hj, if_false, Int.zero_mul, wrapI64_zero]
      exact ih _ _

theorem coeffLoop_den_of_dup (i : Nat) (xi : Int) :
    ∀ (ps : List Point) (j : Nat) (nd : Int × Int),
      (∃ n p, ps[n]? = some p ∧ j + n ≠ i ∧ p.x = xi) → (coeffLoop i xi j ps nd).2 = 0 := by
  intro ps
  induction ps with
  | nil =>
    intro j nd h
    obtain ⟨n, p, hp, _⟩ := h
    simp at hp
  | cons q ps ih =>
    intro j nd h
    obtain ⟨n, p, hp, hne, hx⟩ := h
    cases n with
    | zero =>
      have hq : q = p := by simpa using hp
      have hj : j ≠ i := by simpa using hne
      unfold coeffLoop
      simp only [hj, if_false, hq, hx, Int.sub_self, wrapI64_zero, Int.mul_zero]
      exact coeffLoop_den_zero i xi ps _ _
    | succ n =>
      have hp2 : ps[n]? = some p := by simpa using hp
      have hne2 : j + 1 + n ≠ i := by omega
      unfold coeffLoop
      by_cases hj : j = i
      · simp only [hj, if_true]
        exact ih _ _ ⟨n, p, hp2, by omega, hx⟩
      · simp only [hj, if_false]
        exact ih _ _ ⟨n, p, hp2, hne2, hx⟩

theorem divInt_error {A : BigInt} {d : Int} {e : Failure}
    (h : A.divInt d = Except.error e) : e = Failure.assertion := by
  unfold BigInt.divInt BigInt.divIntRem at h
  by_cases hd : d > 0
  · by_cases hz : A.isZero = true
    · simp [hd, hz, Except.map] at h
    · simp [hd, hz, Except.map] at h
  · simp only [hd, not_false_eq_true, if_true, Except.map] at h
    cases h
    rfl

theorem divInt_nonpos {A : BigInt} {d : Int} (hd : d ≤ 0) :
    A.divInt d = Except.error Failure.assertion := by
  have h : ¬ (d > 0) := by omega
  simp [BigInt.divInt, BigInt.divIntRem, h, Except.map]

theorem termOf_error {y : BigInt} {num den : Int} {e : Failure}
    (h : termOf y num den = Except.error e) : e = Failure.assertion := by
  unfold termOf at h
  by_cases hd : den < 0
  · simp only [hd, if_true] at h
    exact divInt_error h
  · simp only [hd, if_false] at h
    exact divInt_error h

theorem termOf_den_zero (y : BigInt) (num : Int) :
    termOf y num 0 = Except.error Failure.assertion := by
  unfold termOf
  simp only [Int.lt_irrefl, if_false]
  exact divInt_nonpos (Int.le_refl 0)

theorem outerLoop_fails (pts : List Point) :
    ∀ (ps : List Point) (i : Nat) (ans : BigInt),
      (∃ n p, ps[n]? = some p ∧ (coeffLoop (i + n) p.x 0 pts (1, 1)).2 = 0) →
        outerLoop pts i ps ans = Except.error Failure.assertion := by
  intro ps
  induction ps with
  | nil =>
    intro i ans h
    obtain ⟨n, p, hp, _⟩ := h
    simp at hp
  | cons q ps ih =>
    intro i ans h
    obtain ⟨n, p, hp, hden⟩ := h
    unfold outerLoop
    cases hterm : termOf q.y (coeffLoop i q.x 0 pts (1, 1)).1 (coeffLoop i q.x 0 pts (1, 1)).2 with
    | error e =>
      simp only [hterm]
      rw [termOf_error hterm]
    | ok term =>
      simp only [hterm]
      cases n with
      | zero =>
        have hq : q = p := by simpa using hp
        rw [hq] at hterm
        simp only [Nat.add_zero] at hden
        rw [hden, termOf_den_zero] at hterm
        cases hterm
      | succ n =>
        have hp2 : ps[n]? = some p := by simpa using hp
        apply ih
        refine ⟨n, p, hp2, ?_⟩
        have : i + 1 + n = i + (n + 1) := by omega
        rw [this]
        exact hden

theorem outerLoop_fails_of_dup (pts : List Point) (h : ¬ (pts.map Point.x).Nodup) :
    outerLoop pts 0 pts (BigInt.ofInt64 0) = Except.error Failure.assertion := by
  rw [List.nodup_iff_getElem?_ne_getElem?] at h
  push_neg at h
  obtain ⟨i, j, hij, hj, heq⟩ := h
  rw [List.length_map] at hj
  have hi : i < pts.length := by omega
  apply outerLoop_fails
  refine ⟨i, pts[i], List.getElem?_eq_getElem hi, ?_⟩
  apply coeffLoop_den_of_dup
  refine ⟨j, pts[j], List.getElem?_eq_getElem hj, by omega, ?_⟩
  simp only [List.getElem?_map, List.getElem?_eq_getElem hi, List.getElem?_eq_getElem hj,
    Option.map_some'] at heq
  exact (Option.some.inj heq).symm

theorem resize_of_le (points : List Point) (k : Int) (h0 : 0 ≤ k) (hk : k ≤ points.length) :
    resize points k = Except.ok (points.take k.toNat) := by
  unfold resize
  have h1 : ¬ k < 0 := by omega
  have h2 : k.toNat - points.length = 0 := by omega
  simp [h1, h2]

/-- C7: with 2 <= k <= length, when two of the k selected points (the first k
in ascending x) have the same x, `interpolate_constant_term` returns no BigInt:
it stops on the failed `assert(d > 0)` of `divInt`. -/
theorem interpolate_duplicate_x_fails (points : List Point) (k : Int) (h2 : 2 ≤ k)
    (hk : k ≤ points.length)
    (hdup : ¬ (((sortByX points).take k.toNat).map Point.x).Nodup) :
    interpolate_constant_term points k = Except.error Failure.assertion := by
  unfold interpolate_constant_term
  have hlen : (sortByX points).length = points.length := List.length_insertionSort _ _
  rw [resize_of_le _ k (by omega) (by omega)]
  exact outerLoop_fails_of_dup _ hdup

/-- Witness of C7: two selected points with x = 1. -/
theorem interpolate_duplicate_x_fails_witness :
    (2 : Int) ≤ 2 ∧ (2 : Int) ≤ ([mkPoint 3 9, mkPoint 1 5, mkPoint 1 6] : List Point).length ∧
      ¬ (((sortByX [mkPoint 3 9, mkPoint 1 5, mkPoint 1 6]).take (2 : Int).toNat).map
        Point.x).Nodup ∧
      interpolate_constant_term [mkPoint 3 9, mkPoint 1 5, mkPoint 1 6] 2
        = Except.error Failure.assertion :=
  ⟨by decide, by decide, by decide,
    interpolate_duplicate_x_fails _ 2 (by decide) (by decide) (by decide)⟩

/-! ## Selection of the k points of smallest x -/

theorem sorted_take_eq :
    ∀ (S rest T : List Point), T.Sorted Point.le → T.Perm (S ++ rest) →
      S.Pairwise (fun p q => p.x < q.x) → (∀ p ∈ S, ∀ q ∈ rest, p.x < q.x) →
        T.take S.length = S := by
  intro S
  induction S with
  | nil => intro rest T _ _ _ _; simp
  | cons s S ih =>
    intro rest T hT hperm hS hlow
    cases T with
    | nil =>
      have := hperm.length_eq
      simp at this
    | cons t T =>
      rw [List.sorted_cons] at hT
      rw [List.pairwise_cons] at hS
      have hs : s ∈ t :: T := hperm.symm.subset (List.mem_cons_self _ _)
      have ht : t ∈ s :: (S ++ rest) := hperm.subset (List.mem_cons_self _ _)
      have hts : t = s := by
        rcases List.mem_cons.mp ht with h | h
        · exact h
        · have hlt : s.x < t.x := by
            rcases List.mem_append.mp h with h1 | h1
            · exact hS.1 t h1
            · exact hlow s (List.mem_cons_self _ _) t h1
          rcases List.mem_cons.mp hs with h2 | h2
          · exact h2.symm
          · have hle : t.x ≤ s.x := hT.1 s h2
            omega
      subst hts
      have hperm2 : T.Perm (S ++ rest) := (List.perm_cons t).mp hperm
      have := ih rest T hT.2 hperm2 hS.2 (fun p hp q hq => hlow p (List.mem_cons_of_mem _ hp) q hq)
      simp [this]

theorem sortByX_of_ascending {S : List Point} (hS : S.Pairwise (fun p q => p.x < q.x)) :
    sortByX S = S := by
  apply List.Sorted.insertionSort_eq
  exact List.Pairwise.imp (fun h => Int.le_of_lt h) hS

theorem interpolate_of_lowest {S points : List Point} {k : Int} (h0 : 0 ≤ k)
    (h : IsLowestK S points k.toNat) :
    interpolate_constant_term points k = outerLoop S 0 S (BigInt.ofInt64 0) := by
  obtain ⟨hlen, hS, rest, hperm, hlow⟩ := h
  have hsort : (sortByX points).Sorted Point.le := List.sorted_insertionSort _ _
  have hp : (sortByX points).Perm (S ++ rest) :=
    (List.perm_insertionSort _ _).trans hperm.symm
  have htake := sorted_take_eq S rest _ hsort hp hS hlow
  have hl : (sortByX points).length = S.length + rest.length := by
    rw [hp.length_eq, List.length_append]
  unfold interpolate_constant_term
  rw [resize_of_le _ k h0 (by omega), ← hlen, htake]

theorem isLowestK_self {S : List Point} (hS : S.Pairwise (fun p q => p.x < q.x)) :
    IsLowestK S S S.length :=
  ⟨rfl, hS, [], by simp, by simp⟩

theorem isLowestK_sorted_take (points : List Point) (k : Nat) (hk : k ≤ points.length)
    (hnd : (points.map Point.x).Nodup) : IsLowestK ((sortByX points).take k) points k := by
  have hsort : (sortByX points).Sorted Point.le := List.sorted_insertionSort _ _
  have hperm : (sortByX points).Perm points := List.perm_insertionSort _ _
  have hnd2 : ((sortByX points).map Point.x).Nodup := (hperm.map Point.x).nodup_iff.mpr hnd
  have hne : (sortByX points).Pairwise (fun p q => p.x ≠ q.x) := by
    rw [List.Nodup, List.pairwise_map] at hnd2
    exact hnd2
  have hlt : (sortByX points).Pairwise (fun p q => p.x < q.x) := by
    refine List.Pairwise.imp ?_ (List.Pairwise.and hsort hne)
    intro p q h
    have h1 : p.x ≤ q.x := h.1
    have h2 := h.2
    omega
  have hsplit : (sortByX points).take k ++ (sortByX points).drop k = sortByX points :=
    List.take_append_drop _ _
  rw [← hsplit, List.pairwise_append] at hlt
  refine ⟨?_, hlt.1, (sortByX points).drop k, ?_, hlt.2.2⟩
  · rw [List.length_take, hperm.length_eq]
    omega
  · rw [hsplit]
    exact hperm

/-- C5: for points of pairwise distinct x and 1 <= k <= length, the k points of
smallest x in ascending x exist, and for that list S the result on the points
is the result on S; the result is the same for every permutation of the points,
for the points followed by further points of x larger than every x of S, and
for every list that consists of the points of S and of points of larger x
(points of larger x added or removed, in any order). -/
theorem interpolate_lowest_k (points : List Point) (k : Int) (h1 : 1 ≤ k)
    (hk : k ≤ points.length) (hnd : (points.map Point.x).Nodup) :
    (∃ S, IsLowestK S points k.toNat) ∧
      ∀ S, IsLowestK S points k.toNat →
        interpolate_constant_term points k = interpolate_constant_term S k ∧
        (∀ points2 : List Point, points2.Perm points →
          interpolate_constant_term points2 k = interpolate_constant_term points k) ∧
        (∀ extra : List Point, (∀ q ∈ extra, ∀ p ∈ S, p.x < q.x) →
          interpolate_constant_term (points ++ extra) k = interpolate_constant_term points k) ∧
        (∀ points2 : List Point, IsLowestK S points2 k.toNat →
          interpolate_constant_term points2 k = interpolate_constant_term points k) := by
  have h0 : 0 ≤ k := by omega
  refine ⟨⟨_, isLowestK_sorted_take points k.toNat (by omega) hnd⟩, ?_⟩
  intro S hS
  have hmain := interpolate_of_lowest h0 hS
  refine ⟨?_, ?_, ?_, ?_⟩
  · have hself : IsLowestK S S k.toNat := by
      have := isLowestK_self hS.2.1
      rw [hS.1] at this
      exact this
    rw [hmain, interpolate_of_lowest h0 hself]
  · intro points2 hperm
    obtain ⟨hlen, hpw, rest, hp, hlow⟩ := hS
    have h2 : IsLowestK S points2 k.toNat := ⟨hlen, hpw, rest, hp.trans hperm.symm, hlow⟩
    rw [hmain, interpolate_of_lowest h0 h2]
  · intro extra hextra
    obtain ⟨hlen, hpw, rest, hp, hlow⟩ := hS
    have h2 : IsLowestK S (points ++ extra) k.toNat := by
      refine ⟨hlen, hpw, rest ++ extra, ?_, ?_⟩
      · rw [← List.append_assoc]
        exact hp.append_right extra
      · intro p hp2 q hq
        rcases List.mem_append.mp hq with hq | hq
        · exact hlow p hp2 q hq
        · exact hextra q hq p hp2
    rw [hmain, interpolate_of_lowest h0 h2]
  · intro points2 h2
    rw [hmain, interpolate_of_lowest h0 h2]

/-- Witness of C5: three points out of order, k = 2; the point of x = 3 may be
dropped. -/
theorem interpolate_lowest_k_witness :
    (1 : Int) ≤ 2 ∧ (2 : Int) ≤ ([mkPoint 3 9, mkPoint 1 5, mkPoint 2 8] : List Point).length ∧
      (([mkPoint 3 9, mkPoint 1 5, mkPoint 2 8] : List Point).map Point.x).Nodup ∧
      interpolate_constant_term [mkPoint 3 9, mkPoint 1 5, mkPoint 2 8] 2
        = interpolate_constant_term [mkPoint 1 5, mkPoint 2 8] 2 :=
  ⟨by decide, by decide, by decide,
    ((interpolate_lowest_k [mkPoint 3 9, mkPoint 1 5, mkPoint 2 8] 2 (by decide) (by decide)
      (by decide)).2 [mkPoint 1 5, mkPoint 2 8]
        ⟨by decide, by decide, [mkPoint 3 9], by decide, by decide⟩).1⟩

/-! ## Value and canonical form of the BigInt operations -/

theorem limbsVal_append (l m : List Int) :
    limbsVal (l ++ m) = limbsVal l + BASE ^ l.length * limbsVal m := by
  induction l with
  | nil => simp [limbsVal]
  | cons x t ih =>
    show x + BASE * limbsVal (t ++ m)
      = (x + BASE * limbsVal t) + BASE ^ (t.length + 1) * limbsVal m
    rw [ih, pow_succ]
    ring

theorem limbsOk_append {l m : List Int} : LimbsOk (l ++ m) ↔ LimbsOk l ∧ LimbsOk m := by
  simp only [LimbsOk, List.mem_append]
  constructor
  · intro h
    exact ⟨fun x hx => h x (Or.inl hx), fun x hx => h x (Or.inr hx)⟩
  · rintro ⟨h1, h2⟩ x (hx | hx)
    · exact h1 x hx
    · exact h2 x hx

theorem limbsVal_nonneg : ∀ l : List Int, LimbsOk l → 0 ≤ limbsVal l := by
  intro l
  induction l with
  | nil => intro _; simp [limbsVal]
  | cons x t ih =>
    intro h
    rw [limbsOk_cons] at h
    have := ih h.2
    have hx := h.1.1
    simp only [limbsVal, BASE]
    omega

theorem limbsVal_pos : ∀ l : List Int, LimbsOk l → l.getLast? ≠ some 0 → l ≠ [] →
    0 < limbsVal l := by
  intro l
  induction l with
  | nil => intro _ _ h; exact absurd rfl h
  | cons x t ih =>
    intro h htop _
    rw [limbsOk_cons] at h
    cases t with
    | nil =>
      have hx : x ≠ 0 := by simpa using htop
      have := h.1.1
      simp only [limbsVal]
      omega
    | cons y t =>
      rw [List.getLast?_cons_cons] at htop
      have := ih h.2 htop (List.cons_ne_nil _ _)
      have hx := h.1.1
      simp only [limbsVal, BASE] at this ⊢
      omega

theorem trimLimbs_spec : ∀ l : List Int, LimbsOk l →
    LimbsOk (BigInt.trimLimbs l) ∧ limbsVal (BigInt.trimLimbs l) = limbsVal l ∧
      (BigInt.trimLimbs l).getLast? ≠ some 0 := by
  intro l
  induction l using List.reverseRecOn with
  | nil => intro _; simp [BigInt.trimLimbs, LimbsOk]
  | append_singleton l x ih =>
    intro h
    rw [limbsOk_append] at h
    unfold BigInt.trimLimbs at ih ⊢
    rw [List.rdropWhile_concat]
    by_cases hx : x = 0
    · subst hx
      simp only [beq_self_eq_true, if_true]
      have := ih h.1
      refine ⟨this.1, ?_, this.2.2⟩
      rw [this.2.1, limbsVal_append]
      simp [limbsVal]
    · have hb : (x == 0) = false := by simpa using hx
      simp only [hb]
      refine ⟨limbsOk_append.mpr h, rfl, ?_⟩
      simp [hx]

theorem limbsVal_eq_zero_of_trim_nil {l : List Int} (h : LimbsOk l)
    (he : BigInt.trimLimbs l = []) : limbsVal l = 0 := by
  have := (trimLimbs_spec l h).2.1
  rw [he] at this
  simpa [limbsVal] using this.symm

theorem trim_spec (s : Int) (l : List Int) (hs : s = -1 ∨ s = 1) (h : LimbsOk l) :
    (BigInt.trim ⟨s, l⟩).Canonical ∧ (BigInt.trim ⟨s, l⟩).toInt = s * limbsVal l := by
  obtain ⟨h1, h2, h3⟩ := trimLimbs_spec l h
  unfold BigInt.trim
  cases ht : BigInt.trimLimbs l with
  | nil =>
    have hv := limbsVal_eq_zero_of_trim_nil h ht
    simp [BigInt.Canonical, BigInt.toInt, limbsVal, hv]
  | cons x t =>
    rw [ht] at h1 h2 h3
    refine ⟨⟨?_, h1, h3, ?_⟩, ?_⟩
    · simp only [List.isEmpty_cons]
      rcases hs with hs | hs <;> simp [hs]
    · simp only [List.isEmpty_cons]
      rcases hs with hs | hs <;> simp [hs]
    · simp only [BigInt.toInt, List.isEmpty_cons, h2]
      simp

theorem canonical_zero : (BigInt.mk 0 []).Canonical := by decide

theorem canonical_sign_toInt {A : BigInt} (h : A.Canonical) :
    (A.sign = 0 → A.toInt = 0) ∧ (A.sign = 1 → 0 < A.toInt) ∧ (A.sign = -1 → A.toInt < 0) := by
  obtain ⟨_, h2, h3, h4⟩ := h
  unfold BigInt.toInt
  refine ⟨fun hs => by simp [hs], fun hs => ?_, fun hs => ?_⟩
  · have hne : A.a ≠ [] := fun he => by rw [h4.2 he] at hs; omega
    have := limbsVal_pos A.a h2 h3 hne
    rw [hs]; omega
  · have hne : A.a ≠ [] := fun he => by rw [h4.2 he] at hs; omega
    have := limbsVal_pos A.a h2 h3 hne
    rw [hs]; omega

theorem pushLimbs_spec : ∀ (fuel : Nat) (x : Int), 0 ≤ x → x.toNat ≤ fuel →
    limbsVal (BigInt.pushLimbs fuel x) = x ∧ LimbsOk (BigInt.pushLimbs fuel x) ∧
      (BigInt.pushLimbs fuel x).getLast? ≠ some 0 := by
  intro fuel
  induction fuel with
  | zero =>
    intro x h0 hf
    have hx : x = 0 := by omega
    simp [BigInt.pushLimbs, limbsVal, LimbsOk, hx]
  | succ fuel ih =>
    intro x h0 hf
    unfold BigInt.pushLimbs
    by_cases hx : x = 0
    · simp [hx, limbsVal, LimbsOk]
    · simp only [hx, if_false]
      have hmod0 : 0 ≤ x % BASE := by unfold BASE; omega
      have hmod1 : x % BASE < BASE := by unfold BASE; omega
      have hdiv0 : 0 ≤ x / BASE := by unfold BASE; omega
      have hdiv1 : (x / BASE).toNat ≤ fuel := by unfold BASE; omega
      obtain ⟨i1, i2, i3⟩ := ih (x / BASE) hdiv0 hdiv1
      rw [wrapI32_of_limb hmod0 hmod1]
      refine ⟨?_, limbsOk_cons.mpr ⟨⟨hmod0, hmod1⟩, i2⟩, ?_⟩
      · simp only [limbsVal, i1]
        unfold BASE; omega
      · cases ht : BigInt.pushLimbs fuel (x / BASE) with
        | nil =>
          rw [ht] at i1
          have hd : x / BASE = 0 := by simpa [limbsVal] using i1.symm
          have : x % BASE ≠ 0 := by unfold BASE at hd ⊢; omega
          simpa using this
        | cons y t =>
          rw [List.getLast?_cons_cons, ← ht]
          exact i3

theorem ofInt64_spec (v : Int) (h0 : -9223372036854775808 ≤ v) (h1 : v < 9223372036854775808) :
    (BigInt.ofInt64 v).Canonical ∧ (BigInt.ofInt64 v).toInt = v := by
  unfold BigInt.ofInt64
  by_cases hv : v = 0
  · simp [hv, BigInt.Canonical, BigInt.toInt, limbsVal]
  · simp only [hv, if_false]
    have hx : toU64 (if v < 0 then wrapI64 (-v) else v) = |v| := by
      unfold toU64 wrapI64
      by_cases hn : v < 0
      · simp only [hn, if_true]
        rw [abs_of_neg hn]; omega
      · simp only [hn, if_false]
        rw [abs_of_nonneg (by omega)]; omega
    rw [hx]
    have habs : 0 < |v| := abs_pos.mpr hv
    obtain ⟨i1, i2, i3⟩ := pushLimbs_spec (|v|).toNat (|v|) (by omega) (Nat.le_refl _)
    have hne : BigInt.pushLimbs (|v|).toNat (|v|) ≠ [] := by
      intro he
      rw [he] at i1
      simp [limbsVal] at i1
      omega
    refine ⟨⟨?_, i2, i3, ?_⟩, ?_⟩
    · by_cases hn : v < 0 <;> simp [hn]
    · by_cases hn : v < 0 <;> simp [hn, hne]
    · simp only [BigInt.toInt, i1]
      by_cases hn : v < 0
      · simp only [hn, if_true]
        rw [abs_of_neg hn]; omega
      · simp only [hn, if_false]
        rw [abs_of_nonneg (by omega)]; omega

theorem mulLoop_spec (mm : Int) (h0 : 0 ≤ mm) (h1 : mm ≤ 18446744073) :
    ∀ (l : List Int) (carry : Int), LimbsOk l → 0 ≤ carry → carry ≤ mm →
      limbsVal (BigInt.mulLoop mm l carry) = mm * limbsVal l + carry ∧
        LimbsOk (BigInt.mulLoop mm l carry) := by
  intro l
  induction l with
  | nil =>
    intro carry _ hc0 _
    obtain ⟨i1, i2, _⟩ := pushLimbs_spec carry.toNat carry hc0 (Nat.le_refl _)
    simp only [BigInt.mulLoop, limbsVal, i1]
    exact ⟨by omega, i2⟩
  | cons x t ih =>
    intro carry h hc0 hc1
    rw [limbsOk_cons] at h
    have hx0 := h.1.1
    have hx1 := h.1.2
    have hp0 : 0 ≤ x * mm := Int.mul_nonneg hx0 h0
    have hp1 : x * mm ≤ 999999999 * mm :=
      Int.mul_le_mul_of_nonneg_right (by unfold BASE at hx1; omega) h0
    have hcur : toU64 (carry + toU64 (toU64 x * mm)) = carry + x * mm := by
      rw [toU64_of_limb hx0 hx1]
      unfold toU64
      generalize x * mm = p at hp0 hp1
      omega
    simp only [BigInt.mulLoop, hcur]
    obtain ⟨p, hp⟩ : ∃ p, p = x * mm := ⟨_, rfl⟩
    rw [← hp] at hp0 hp1 ⊢
    have hm0 : 0 ≤ (carry + p) % BASE := by unfold BASE; omega
    have hm1 : (carry + p) % BASE < BASE := by unfold BASE; omega
    have hd0 : 0 ≤ (carry + p) / BASE := by unfold BASE; omega
    have hd1 : (carry + p) / BASE ≤ mm := by unfold BASE; omega
    obtain ⟨i1, i2⟩ := ih ((carry + p) / BASE) h.2 hd0 hd1
    rw [wrapI32_of_limb hm0 hm1]
    refine ⟨?_, limbsOk_cons.mpr ⟨⟨hm0, hm1⟩, i2⟩⟩
    simp only [limbsVal, i1]
    have key := Int.emod_add_ediv (carry + p) BASE
    linear_combination key + hp

theorem mulInt_spec (A : BigInt) (m : Int) (hA : A.Canonical) (h0 : -18446744073 ≤ m)
    (h1 : m ≤ 18446744073) :
    (A.mulInt m).Canonical ∧ (A.mulInt m).toInt = A.toInt * m := by
  have hsgn := canonical_sign_toInt hA
  obtain ⟨hs, hl, _, _⟩ := hA
  unfold BigInt.mulInt
  by_cases hm : m = 0
  · simp [hm, BigInt.ofInt64, canonical_zero, BigInt.toInt, limbsVal]
  by_cases hz : A.sign = 0
  · have hz2 : A.isZero = true := by simp [BigInt.isZero, hz]
    simp [hz2, BigInt.ofInt64, canonical_zero, hsgn.1 hz]
    simp [BigInt.toInt, limbsVal]
  · have hz2 : A.isZero = false := by simp [BigInt.isZero, hz]
    simp only [hm, hz2, hz, false_or, if_false, Bool.false_eq_true]
    have hmm : toU64 (if m < 0 then wrapI64 (-m) else m) = |m| := by
      unfold toU64 wrapI64
      by_cases hn : m < 0
      · simp only [hn, if_true]
        rw [abs_of_neg hn]; omega
      · simp only [hn, if_false]
        rw [abs_of_nonneg (by omega)]; omega
    rw [hmm]
    have ha0 : 0 ≤ |m| := abs_nonneg m
    have ha1 : |m| ≤ 18446744073 := abs_le.mpr ⟨by omega, h1⟩
    obtain ⟨i1, i2⟩ := mulLoop_spec (|m|) ha0 ha1 A.a 0 hl (Int.le_refl 0) ha0
    have hsign : (if m < 0 then -A.sign else A.sign) = -1 ∨
        (if m < 0 then -A.sign else A.sign) = 1 := by
      by_cases hn : m < 0 <;> simp only [hn, if_true, if_false] <;> omega
    obtain ⟨j1, j2⟩ := trim_spec _ _ hsign i2
    refine ⟨j1, ?_⟩
    rw [j2, i1]
    unfold BigInt.toInt
    by_cases hn : m < 0
    · simp only [hn, if_true]
      rw [abs_of_neg hn]; ring
    · simp only [hn, if_false]
      rw [abs_of_nonneg (by omega)]; ring

theorem addStep_spec (cur : Int) (h0 : 0 ≤ cur) (h1 : cur < 2 * BASE) :
    (0 ≤ (BigInt.addStep cur).1 ∧ (BigInt.addStep cur).1 < BASE) ∧
      (BigInt.addStep cur).1 + BASE * (if (BigInt.addStep cur).2 then 1 else 0) = cur := by
  unfold BigInt.addStep
  by_cases hc : cur ≥ BASE
  · have hw : wrapI32 (cur - BASE) = cur - BASE :=
      wrapI32_of_limb (by omega) (by omega)
    simp only [hc, decide_True, if_true, hw]
    omega
  · have hw : wrapI32 cur = cur := wrapI32_of_limb h0 (by omega)
    simp only [hc, decide_False, if_false, hw, Bool.false_eq_true]
    omega

theorem addCarry_spec : ∀ (l : List Int) (carry : Bool), LimbsOk l →
    LimbsOk (BigInt.addCarry l carry) ∧
      limbsVal (BigInt.addCarry l carry) = limbsVal l + (if carry then 1 else 0) := by
  intro l
  induction l with
  | nil =>
    intro carry _
    cases carry
    · simp [BigInt.addCarry, LimbsOk, limbsVal]
    · have h : (BigInt.addStep 1).1 = 1 := by decide
      simp [BigInt.addCarry, h, LimbsOk, limbsVal, BASE]
  | cons x t ih =>
    intro carry h
    rw [limbsOk_cons] at h
    have hc0 : 0 ≤ (if carry then (1 : Int) else 0) + x := by
      have := h.1.1
      cases carry <;> simp <;> omega
    have hc1 : (if carry then (1 : Int) else 0) + x < 2 * BASE := by
      have := h.1.2
      have hB : (0 : Int) < BASE := by decide
      cases carry <;> simp <;> omega
    obtain ⟨s1, s2⟩ := addStep_spec _ hc0 hc1
    obtain ⟨i1, i2⟩ := ih (BigInt.addStep ((if carry then 1 else 0) + x)).2 h.2
    simp only [BigInt.addCarry]
    refine ⟨limbsOk_cons.mpr ⟨s1, i1⟩, ?_⟩
    simp only [limbsVal, i2]
    linear_combination s2

theorem addLoop_spec : ∀ (l m : List Int) (carry : Bool), LimbsOk l → LimbsOk m →
    LimbsOk (BigInt.addLoop l m carry) ∧
      limbsVal (BigInt.addLoop l m carry)
        = limbsVal l + limbsVal m + (if carry then 1 else 0) := by
  intro l
  induction l with
  | nil =>
    intro m carry _ hm
    obtain ⟨i1, i2⟩ := addCarry_spec m carry hm
    simp only [BigInt.addLoop]
    exact ⟨i1, by rw [i2]; simp [limbsVal]⟩
  | cons x t ih =>
    intro m carry hl hm
    cases m with
    | nil =>
      obtain ⟨i1, i2⟩ := addCarry_spec (x :: t) carry hl
      simp only [BigInt.addLoop]
      exact ⟨i1, by rw [i2]; simp [limbsVal]⟩
    | cons y u =>
      rw [limbsOk_cons] at hl hm
      have hc0 : 0 ≤ (if carry then (1 : Int) else 0) + x + y := by
        have := hl.1.1
        have := hm.1.1
        cases carry <;> simp <;> omega
      have hc1 : (if carry then (1 : Int) else 0) + x + y < 2 * BASE := by
        have := hl.1.2
        have := hm.1.2
        cases carry <;> simp <;> omega
      obtain ⟨s1, s2⟩ := addStep_spec _ hc0 hc1
      obtain ⟨i1, i2⟩ := ih u (BigInt.addStep ((if carry then 1 else 0) + x + y)).2 hl.2 hm.2
      simp only [BigInt.addLoop]
      refine ⟨limbsOk_cons.mpr ⟨s1, i1⟩, ?_⟩
      simp only [limbsVal, i2]
      linear_combination s2

theorem add_spec_same_sign (A B : BigInt) (hA : A.Canonical) (hB : B.Canonical)
    (hs : A.sign = B.sign ∨ A.sign = 0 ∨ B.sign = 0) :
    (A.add B).Canonical ∧ (A.add B).toInt = A.toInt + B.toInt := by
  have hsa := canonical_sign_toInt hA
  have hsb := canonical_sign_toInt hB
  unfold BigInt.add
  by_cases hza : A.sign = 0
  · have : A.isZero = true := by simp [BigInt.isZero, hza]
    simp only [this, if_true]
    exact ⟨hB, by rw [hsa.1 hza]; simp⟩
  have hza2 : A.isZero = false := by simp [BigInt.isZero, hza]
  by_cases hzb : B.sign = 0
  · have : B.isZero = true := by simp [BigInt.isZero, hzb]
    simp only [hza2, this, if_true, if_false, Bool.false_eq_true]
    exact ⟨hA, by rw [hsb.1 hzb]; simp⟩
  have hzb2 : B.isZero = false := by simp [BigInt.isZero, hzb]
  have heq : A.sign = B.sign := by
    rcases hs with h | h | h
    · exact h
    · exact absurd h hza
    · exact absurd h hzb
  simp only [hza2, hzb2, heq, if_true, if_false, Bool.false_eq_true]
  obtain ⟨a1, a2, a3, a4⟩ := hA
  obtain ⟨b1, b2, b3, b4⟩ := hB
  obtain ⟨i1, i2⟩ := addLoop_spec A.a B.a false a2 b2
  obtain ⟨t1, t2, t3⟩ := trimLimbs_spec _ i1
  have hpa : 0 < limbsVal A.a := limbsVal_pos _ a2 a3 (fun h => hza (a4.2 h))
  have hpb : 0 < limbsVal B.a := limbsVal_pos _ b2 b3 (fun h => hzb (b4.2 h))
  have hsum : limbsVal (BigInt.trimLimbs (BigInt.addLoop A.a B.a false))
      = limbsVal A.a + limbsVal B.a := by
    rw [t2, i2]; simp
  have hne : BigInt.trimLimbs (BigInt.addLoop A.a B.a false) ≠ [] := by
    intro he
    rw [he] at hsum
    simp only [limbsVal] at hsum
    omega
  have hw : BigInt.withSign (A.addAbs B) B.sign
      = ⟨B.sign, BigInt.trimLimbs (BigInt.addLoop A.a B.a false)⟩ := by
    simp [BigInt.withSign, BigInt.addAbs, BigInt.trim, BigInt.isZero, hzb]
  rw [hw]
  refine ⟨⟨b1, t1, t3, ?_⟩, ?_⟩
  · simp [hzb, hne]
  · simp only [BigInt.toInt, hsum, heq]
    ring

theorem canonical_nonneg_iff {A : BigInt} (h : A.Canonical) : 0 ≤ A.toInt ↔ 0 ≤ A.sign := by
  have hs := canonical_sign_toInt h
  obtain ⟨h1, _, _, _⟩ := h
  rcases h1 with h1 | h1 | h1
  · have := hs.2.2 h1
    omega
  · have := hs.1 h1
    omega
  · have := hs.2.1 h1
    omega

theorem decodeStep_spec (res : BigInt) (base d : Int) (hr : res.Canonical)
    (hn : 0 ≤ res.toInt) (hb0 : 0 < base) (hb1 : base ≤ 2147483647) (hd0 : 0 ≤ d)
    (hd1 : d < 36) :
    ((res.mulInt base).addInt d).Canonical ∧
      ((res.mulInt base).addInt d).toInt = res.toInt * base + d := by
  obtain ⟨m1, m2⟩ := mulInt_spec res base hr (by omega) (by omega)
  obtain ⟨o1, o2⟩ := ofInt64_spec d (by omega) (by omega)
  have hm0 : 0 ≤ (res.mulInt base).toInt := by
    rw [m2]
    exact Int.mul_nonneg hn (by omega)
  have ho0 : 0 ≤ (BigInt.ofInt64 d).toInt := by omega
  have hs1 := (canonical_nonneg_iff m1).mp hm0
  have hs2 := (canonical_nonneg_iff o1).mp ho0
  have hsign : (res.mulInt base).sign = (BigInt.ofInt64 d).sign ∨ (res.mulInt base).sign = 0 ∨
      (BigInt.ofInt64 d).sign = 0 := by
    have c1 := m1.1
    have c2 := o1.1
    omega
  obtain ⟨r1, r2⟩ := add_spec_same_sign _ _ m1 o1 hsign
  unfold BigInt.addInt
  exact ⟨r1, by rw [r2, m2, o2]⟩

/-! ## Radix decoder -/

theorem charToVal_alnum : ∀ c ∈ lowerDigits ++ upperDigits,
    charToVal c = (match digitValue c with
      | some d => (d : Int)
      | none => -1) := by
  decide

theorem alnum_of_range : ∀ n, n < 123 →
    (48 ≤ n ∧ n ≤ 57) ∨ (97 ≤ n ∧ n ≤ 122) ∨ (65 ≤ n ∧ n ≤ 90) →
      Char.ofNat n ∈ lowerDigits ++ upperDigits := by
  decide

theorem charToVal_eq (c : Char) :
    charToVal c = (match digitValue c with
      | some d => (d : Int)
      | none => -1) := by
  by_cases h : c ∈ lowerDigits ++ upperDigits
  · exact charToVal_alnum c h
  · have hr : ¬ ((48 ≤ c.toNat ∧ c.toNat ≤ 57) ∨ (97 ≤ c.toNat ∧ c.toNat ≤ 122) ∨
        (65 ≤ c.toNat ∧ c.toNat ≤ 90)) := by
      intro hr
      apply h
      have := alnum_of_range c.toNat (by omega) hr
      rwa [Char.ofNat_toNat] at this
    have h1 : c ∉ lowerDigits := fun hc => h (List.mem_append_left _ hc)
    have h2 : c ∉ upperDigits := fun hc => h (List.mem_append_right _ hc)
    have hd : digitValue c = none := by simp [digitValue, h1, h2]
    rw [hd]
    have e0 : '0'.toNat = 48 := by decide
    have e9 : '9'.toNat = 57 := by decide
    have ea : 'a'.toNat = 97 := by decide
    have ez : 'z'.toNat = 122 := by decide
    have eA : 'A'.toNat = 65 := by decide
    have eZ : 'Z'.toNat = 90 := by decide
    unfold charToVal
    rw [e0, e9, ea, ez, eA, eZ]
    have r1 : ¬ (48 ≤ c.toNat ∧ c.toNat ≤ 57) := fun x => hr (Or.inl x)
    have r2 : ¬ (97 ≤ c.toNat ∧ c.toNat ≤ 122) := fun x => hr (Or.inr (Or.inl x))
    have r3 : ¬ (65 ≤ c.toNat ∧ c.toNat ≤ 90) := fun x => hr (Or.inr (Or.inr x))
    simp only [r1, r2, r3, if_false]

theorem digitValue_lt {c : Char} {d : Nat} (h : digitValue c = some d) : d < 36 := by
  unfold digitValue at h
  by_cases h1 : c ∈ lowerDigits
  · simp only [h1, if_true, Option.some.injEq] at h
    rw [← h]
    exact List.indexOf_lt_length.mpr h1
  · by_cases h2 : c ∈ upperDigits
    · simp only [h1, h2, if_true, if_false, Option.some.injEq] at h
      rw [← h]
      exact List.indexOf_lt_length.mpr h2
    · simp [h1, h2] at h

theorem digitValue_getD : ∀ d, d < 36 →
    digitValue (lowerDigits.getD d '0') = some d ∧
      digitValue (upperDigits.getD d '0') = some d := by
  decide

theorem decodeLoop_cons (base : Int) (c : Char) (cs : List Char) (res : BigInt) :
    decodeLoop base (c :: cs) res =
      if charToVal c < 0 ∨ charToVal c ≥ base then decodeLoop base cs res
      else decodeLoop base cs ((res.mulInt base).addInt (charToVal c)) := rfl

theorem decodeLoop_skip (base : Int) (c : Char) (cs : List Char) (res : BigInt)
    (h : countsIn base c = false) : decodeLoop base (c :: cs) res = decodeLoop base cs res := by
  have hc := charToVal_eq c
  unfold countsIn at h
  cases hd : digitValue c with
  | none =>
    rw [hd] at hc
    simp only at hc
    have hcond : charToVal c < 0 ∨ charToVal c ≥ base := by rw [hc]; left; decide
    rw [decodeLoop_cons, if_pos hcond]
  | some d =>
    rw [hd] at hc h
    simp only at hc h
    have : ¬ ((d : Int) < base) := by simpa using h
    have hcond : charToVal c < 0 ∨ charToVal c ≥ base := by rw [hc]; omega
    rw [decodeLoop_cons, if_pos hcond]

theorem decodeLoop_step (base : Int) (c : Char) (cs : List Char) (res : BigInt)
    (h : countsIn base c = true) :
    ∃ d : Nat, digitValue c = some d ∧ (d : Int) < base ∧
      decodeLoop base (c :: cs) res = decodeLoop base cs ((res.mulInt base).addInt d) := by
  have hc := charToVal_eq c
  unfold countsIn at h
  cases hd : digitValue c with
  | none => rw [hd] at h; simp at h
  | some d =>
    rw [hd] at hc h
    simp only at hc h
    have hlt : (d : Int) < base := by simpa using h
    refine ⟨d, rfl, hlt, ?_⟩
    have hd0 : (0 : Int) ≤ (d : Int) := Int.ofNat_nonneg d
    have hcond : ¬ (charToVal c < 0 ∨ charToVal c ≥ base) := by
      rw [hc]
      clear h
      omega
    rw [decodeLoop_cons, if_neg hcond, hc]

theorem decodeLoop_filter (base : Int) : ∀ (s : List Char) (res : BigInt),
    decodeLoop base s res = decodeLoop base (s.filter (countsIn base)) res := by
  intro s
  induction s with
  | nil => intro res; rfl
  | cons c cs ih =>
    intro res
    cases h : countsIn base c with
    | false =>
      rw [decodeLoop_skip base c cs res h, List.filter_cons_of_neg (by simp [h])]
      exact ih res
    | true =>
      obtain ⟨d, _, _, hstep⟩ := decodeLoop_step base c cs res h
      obtain ⟨d2, _, _, hstep2⟩ :=
        decodeLoop_step base c (cs.filter (countsIn base)) res h
      rw [List.filter_cons_of_pos h, hstep, hstep2]
      have hcv : ((res.mulInt base).addInt (d : Int)) = ((res.mulInt base).addInt (d2 : Int)) := by
        have : d = d2 := by
          rename_i a1 _ a2 _
          rw [a1] at a2
          exact Option.some.inj a2
        rw [this]
      rw [hcv]
      exact ih _

theorem decodeLoop_spec (base : Int) (hb1 : base ≤ 2147483647) :
    ∀ (s : List Char) (res : BigInt), res.Canonical → 0 ≤ res.toInt →
      (decodeLoop base s res).Canonical ∧
        (decodeLoop base s res).toInt
          = (validDigits base s).foldl (fun (acc : Int) (d : Nat) => acc * base + (d : Int)) res.toInt := by
  intro s
  induction s with
  | nil => intro res hr _; exact ⟨hr, rfl⟩
  | cons c cs ih =>
    intro res hr hn
    cases h : countsIn base c with
    | false =>
      rw [decodeLoop_skip base c cs res h]
      have hv : validDigits base (c :: cs) = validDigits base cs := by
        unfold validDigits
        rw [List.filter_cons_of_neg (by simp [h])]
      rw [hv]
      exact ih res hr hn
    | true =>
      obtain ⟨d, hd, hlt, hstep⟩ := decodeLoop_step base c cs res h
      have hv : validDigits base (c :: cs) = d :: validDigits base cs := by
        unfold validDigits
        rw [List.filter_cons_of_pos h, List.filterMap_cons_some hd]
      have hd36 := digitValue_lt hd
      obtain ⟨s1, s2⟩ := decodeStep_spec res base d hr hn (by omega) hb1 (by omega) (by omega)
      have hn2 : 0 ≤ ((res.mulInt base).addInt d).toInt := by
        rw [s2]
        have := Int.mul_nonneg hn (show (0 : Int) ≤ base by omega)
        omega
      obtain ⟨i1, i2⟩ := ih _ s1 hn2
      rw [hstep, hv, List.foldl_cons, ← s2]
      exact ⟨i1, i2⟩

theorem decodeInBase_spec (s : List Char) (base : Int) (hb1 : base ≤ 2147483647) :
    (decodeInBase s base).Canonical ∧
      (decodeInBase s base).toInt = positional base (validDigits base s) := by
  have h := decodeLoop_spec base hb1 s (BigInt.ofInt64 0) canonical_zero (by decide)
  exact h

theorem eq_zero_of_toInt {A : BigInt} (h : A.Canonical) (hv : A.toInt = 0) :
    A = BigInt.zero := by
  have hs := canonical_sign_toInt h
  obtain ⟨h1, _, _, h4⟩ := h
  have hz : A.sign = 0 := by
    rcases h1 with h1 | h1 | h1
    · have := hs.2.2 h1; omega
    · exact h1
    · have := hs.2.1 h1; omega
  cases A with
  | mk sg l =>
    simp only at hz h4
    subst hz
    have := h4.1 rfl
    subst this
    rfl

theorem positional_reverse (b : Nat) : ∀ l : List Nat,
    positional (b : Int) l.reverse = ((Nat.ofDigits b l : Nat) : Int) := by
  intro l
  induction l with
  | nil => simp [positional]
  | cons x t ih =>
    unfold positional at ih ⊢
    rw [List.reverse_cons, List.foldl_append, ih, Nat.ofDigits_cons]
    simp only [List.foldl_cons, List.foldl_nil]
    push_cast
    ring

theorem validDigits_encode (upper : Bool) (v b : Nat) (h2 : 2 ≤ b) (h36 : b ≤ 36) (hv : v ≠ 0) :
    validDigits (b : Int) (encode upper v b) = (Nat.digits b v).reverse := by
  unfold encode
  simp only [hv, if_false]
  have hall : ∀ d ∈ (Nat.digits b v).reverse, d < b := fun d hd =>
    Nat.digits_lt_base (by omega) (List.mem_reverse.mp hd)
  generalize (Nat.digits b v).reverse = l at hall
  induction l with
  | nil => rfl
  | cons d t ih =>
    have hd : d < b := hall d (List.mem_cons_self _ _)
    have hdv : digitValue ((if upper then upperDigits else lowerDigits).getD d '0') = some d := by
      have := digitValue_getD d (by omega)
      cases upper
      · exact this.1
      · exact this.2
    have hc : countsIn (b : Int) ((if upper then upperDigits else lowerDigits).getD d '0')
        = true := by
      unfold countsIn
      rw [hdv]
      simp only [decide_eq_true_eq]
      omega
    have iht := ih (fun e he => hall e (List.mem_cons_of_mem _ he))
    unfold validDigits at iht ⊢
    rw [List.map_cons, List.filter_cons_of_pos hc, List.filterMap_cons_some hdv, iht]

/-- C8: for every natural number v and base 2 <= b <= 36, decoding the
standard base-b numeral of v (lower-case or upper-case digits, "0" for zero)
gives the canonical BigInt of value v. -/
theorem decode_encode_roundtrip (upper : Bool) (v b : Nat) (h2 : 2 ≤ b) (h36 : b ≤ 36) :
    (decodeInBase (encode upper v b) b).Canonical ∧
      (decodeInBase (encode upper v b) b).toInt = v := by
  obtain ⟨c1, c2⟩ := decodeInBase_spec (encode upper v b) b (by omega)
  refine ⟨c1, ?_⟩
  rw [c2]
  by_cases hv : v = 0
  · subst hv
    have hb : (0 : Int) < (b : Int) := by omega
    have hc : countsIn (b : Int) '0' = true := by
      have : digitValue '0' = some 0 := by decide
      simp [countsIn, this, hb]
    have hd : digitValue '0' = some 0 := by decide
    have : validDigits (b : Int) (encode upper 0 b) = [0] := by
      simp only [encode, if_true, validDigits]
      rw [List.filter_cons_of_pos hc, List.filterMap_cons_some hd]
      rfl
    rw [this]
    simp [positional]
  · rw [validDigits_encode upper v b h2 h36 hv, positional_reverse, Nat.ofDigits_digits]

/-- Witness of C8: 255 in base 16, upper-case digits. -/
theorem decode_encode_roundtrip_witness :
    (2 ≤ 16 ∧ 16 ≤ 36) ∧ (decodeInBase (encode true 255 16) (16 : Nat)).Canonical ∧
      (decodeInBase (encode true 255 16) (16 : Nat)).toInt = (255 : Nat) :=
  ⟨by decide, decode_encode_roundtrip true 255 16 (by decide) (by decide)⟩

/-- C9: for 2 <= b <= 36, `charToVal` is the digit map of the specification
(-1 for a character that is no digit); the value of `decodeInBase s b` is the
positional value in base b of the digit values of the characters of s that
are digits of value less than b; the other characters have no effect, so that
decoding s and decoding s without them give the same BigInt, and a string
with no such character (the empty string too) decodes to zero. -/
theorem decodeInBase_positional (s : List Char) (b : Int) (h2 : 2 ≤ b) (h36 : b ≤ 36) :
    (∀ c, charToVal c = (match digitValue c with
      | some d => (d : Int)
      | none => -1)) ∧
    (decodeInBase s b).Canonical ∧
    (decodeInBase s b).toInt = positional b (validDigits b s) ∧
    decodeInBase s b = decodeInBase (s.filter (countsIn b)) b ∧
    ((∀ c ∈ s, countsIn b c = false) → decodeInBase s b = BigInt.zero) := by
  obtain ⟨c1, c2⟩ := decodeInBase_spec s b (by omega)
  refine ⟨charToVal_eq, c1, c2, decodeLoop_filter b s _, ?_⟩
  intro hall
  have hf : s.filter (countsIn b) = [] := by
    rw [List.filter_eq_nil_iff]
    intro c hc
    simp [hall c hc]
  unfold decodeInBase
  rw [decodeLoop_filter b s _, hf]
  rfl

/-- Witness of C9: base 16, with a blank and the letter z skipped. -/
theorem decodeInBase_positional_witness :
    ((2 : Int) ≤ 16 ∧ (16 : Int) ≤ 36) ∧
      (decodeInBase "f z_F".toList 16).toInt = positional 16 (validDigits 16 "f z_F".toList) :=
  ⟨by decide, (decodeInBase_positional "f z_F".toList 16 (by decide) (by decide)).2.2.1⟩

/-- C10 (as stated, refuted): with base 37, and with base 1, `decodeInBase`
returns a BigInt; it has no failing path. -/
theorem decodeInBase_base_37_returns :
    ((37 : Int) ≥ 37 ∧ decodeInBase "1z".toList 37 = ⟨1, [72]⟩) ∧
      ((1 : Int) ≤ 1 ∧ decodeInBase "1z".toList 1 = BigInt.zero) := by
  decide

/-- C10 (amended): `decodeInBase` does not check the base. For every string
and every `int` base, also outside [2, 36], it returns a canonical BigInt whose
value is the positional value in that base of the digit values less than the
base: zero when the base is at most 1, and the value of all the alphanumeric
characters of the string when the base is at least 37. -/
theorem decodeInBase_outside_range (s : List Char) (base : Int) (hint : base ≤ 2147483647) :
    (decodeInBase s base).Canonical ∧
    (decodeInBase s base).toInt = positional base (validDigits base s) ∧
    (base ≤ 1 → decodeInBase s base = BigInt.zero) ∧
    (37 ≤ base → validDigits base s = s.filterMap digitValue) := by
  obtain ⟨c1, c2⟩ := decodeInBase_spec s base hint
  refine ⟨c1, c2, ?_, ?_⟩
  · intro hb
    apply eq_zero_of_toInt c1
    rw [c2]
    have hall : ∀ d ∈ validDigits base s, d = 0 := by
      intro d hd
      unfold validDigits at hd
      rw [List.mem_filterMap] at hd
      obtain ⟨c, hc, hcd⟩ := hd
      have hcount := (List.mem_filter.mp hc).2
      unfold countsIn at hcount
      rw [hcd] at hcount
      have : (d : Int) < base := by simpa using hcount
      omega
    generalize validDigits base s = l at hall
    unfold positional
    induction l with
    | nil => rfl
    | cons d t ih =>
      have hd : d = 0 := hall d (List.mem_cons_self _ _)
      subst hd
      rw [List.foldl_cons]
      simpa using ih (fun e he => hall e (List.mem_cons_of_mem _ he))
  · intro hb
    unfold validDigits
    have hf : ∀ c ∈ s, digitValue c ≠ none → countsIn base c = true := by
      intro c _ hne
      unfold countsIn
      cases hd : digitValue c with
      | none => exact absurd hd hne
      | some d =>
        have := digitValue_lt hd
        simp only [decide_eq_true_eq]
        omega
    clear c1 c2
    induction s with
    | nil => rfl
    | cons c cs ih =>
      have iht := ih (fun e he => hf e (List.mem_cons_of_mem _ he))
      cases hd : digitValue c with
      | none =>
        have hc : countsIn base c = false := by simp [countsIn, hd]
        rw [List.filter_cons_of_neg (by simp [hc]), List.filterMap_cons_none hd]
        exact iht
      | some d =>
        have hc : countsIn base c = true :=
          hf c (List.mem_cons_self _ _) (by rw [hd]; simp)
        rw [List.filter_cons_of_pos hc, List.filterMap_cons_some hd,
          List.filterMap_cons_some hd, iht]

/-- Witness of C10 (amended): base 37. -/
theorem decodeInBase_outside_range_witness :
    (37 : Int) ≤ 2147483647 ∧
      validDigits 37 "1z".toList = "1z".toList.filterMap digitValue :=
  ⟨by decide, (decodeInBase_outside_range "1z".toList 37 (by decide)).2.2.2 (by decide)⟩

/-! ## BigInt: the claims on construction, scalar multiplication and division -/

/-- C12: the canonical BigInt 4 multiplied by m = 2^62 gives the BigInt zero:
the product `a[0] * mm` is 2^64, which is 0 in `unsigned long long`; the value
claimed is 4 * 2^62, which is not zero although neither operand is zero. -/
theorem mulInt_wraps_at_two_pow_62 :
    (BigInt.ofInt64 4).Canonical ∧ (BigInt.ofInt64 4).toInt = 4 ∧
      (4611686018427387904 : Int) < 9223372036854775808 ∧
      (BigInt.ofInt64 4).mulInt 4611686018427387904 = BigInt.zero ∧
      BigInt.zero.toInt ≠ 4 * 4611686018427387904 := by
  decide

/-- C13: the canonical BigInt 2 * 10^19 (limbs 0, 0, 20) divided by d = 10^11
gives the quotient 15532559 and the remainder 26290448384: the product
`rem * BASE` is 2 * 10^19, which exceeds 2^64 and wraps; the quotient claimed
is 2 * 10^8 with remainder 0. -/
theorem divInt_wraps_at_large_divisor :
    (BigInt.mk 1 [0, 0, 20]).Canonical ∧
      (BigInt.mk 1 [0, 0, 20]).toInt = 20000000000000000000 ∧
      (BigInt.mk 1 [0, 0, 20]).divIntRem 100000000000
        = Except.ok (⟨1, [15532559]⟩, 26290448384) ∧
      (BigInt.mk 1 [15532559]).toInt * 100000000000 + 26290448384 ≠ 20000000000000000000 := by
  decide

/-- C14: for every BigInt a and every d, `a.divInt(d)` fails (on its
`assert(d > 0)`, returning no quotient) exactly when d <= 0. -/
theorem divInt_fails_iff (A : BigInt) (d : Int) :
    (A.divInt d = Except.error Failure.assertion ↔ d ≤ 0) ∧
      ((∃ q, A.divInt d = Except.ok q) ↔ 0 < d) := by
  by_cases hd : d > 0
  · have hok : ∃ q, A.divInt d = Except.ok q := by
      unfold BigInt.divInt BigInt.divIntRem
      by_cases hz : A.isZero = true
      · exact ⟨_, by simp [hd, hz, Except.map]; rfl⟩
      · exact ⟨_, by simp [hd, hz, Except.map]; rfl⟩
    obtain ⟨q, hq⟩ := hok
    constructor
    · constructor
      · intro h
        rw [hq] at h
        cases h
      · intro h
        omega
    · exact ⟨fun _ => hd, fun _ => ⟨q, hq⟩⟩
  · have herr := divInt_nonpos (A := A) (show d ≤ 0 by omega)
    constructor
    · exact ⟨fun _ => by omega, fun _ => herr⟩
    · constructor
      · rintro ⟨q, hq⟩
        rw [herr] at hq
        cases hq
      · intro h
        omega

/-- C16: for every 64-bit signed v, `BigInt(v)` is the canonical BigInt of
value v (the constructor has no failing path). -/
theorem ofInt64_every_int64 (v : Int) (h0 : -9223372036854775808 ≤ v)
    (h1 : v ≤ 9223372036854775807) :
    (BigInt.ofInt64 v).Canonical ∧ (BigInt.ofInt64 v).toInt = v :=
  ofInt64_spec v h0 (by omega)

/-- Witness of C16: the minimum value -2^63. -/
theorem ofInt64_every_int64_witness :
    ((-9223372036854775808 : Int) ≤ -9223372036854775808 ∧
      (-9223372036854775808 : Int) ≤ 9223372036854775807) ∧
      (BigInt.ofInt64 (-9223372036854775808)).Canonical ∧
      (BigInt.ofInt64 (-9223372036854775808)).toInt = -9223372036854775808 :=
  ⟨by decide, ofInt64_every_int64 (-9223372036854775808) (by decide) (by decide)⟩

/-! ## Comparison and subtraction of magnitudes, signed addition -/

theorem base_pow_pos (n : Nat) : 0 < BASE ^ n := by
  apply pow_pos
  decide

theorem limbsVal_lt_pow : ∀ l : List Int, LimbsOk l → limbsVal l < BASE ^ l.length := by
  intro l
  induction l with
  | nil => intro _; simp [limbsVal]
  | cons x t ih =>
    intro h
    rw [limbsOk_cons] at h
    have h1 := ih h.2
    have hx := h.1.2
    simp only [limbsVal, List.length_cons, pow_succ]
    have hB : (0 : Int) < BASE := by decide
    nlinarith

theorem limbsVal_ge_pow : ∀ l : List Int, LimbsOk l → l.getLast? ≠ some 0 → l ≠ [] →
    BASE ^ (l.length - 1) ≤ limbsVal l := by
  intro l
  induction l with
  | nil => intro _ _ h; exact absurd rfl h
  | cons x t ih =>
    intro h htop _
    rw [limbsOk_cons] at h
    cases t with
    | nil =>
      have hx : x ≠ 0 := by simpa using htop
      have := h.1.1
      simp only [limbsVal, List.length_singleton, Nat.sub_self, pow_zero]
      omega
    | cons y t =>
      rw [List.getLast?_cons_cons] at htop
      have h1 := ih h.2 htop (List.cons_ne_nil _ _)
      have hx := h.1.1
      have hB : (0 : Int) < BASE := by decide
      simp only [List.length_cons, Nat.add_sub_cancel] at h1 ⊢
      simp only [limbsVal] at h1 ⊢
      rw [pow_succ]
      nlinarith

/-- Three-way comparison of two integers, as the result of `cmpAbs`. -/
theorem cmpFromTop_spec : ∀ (xs ys : List Int), xs.length = ys.length → LimbsOk xs →
    LimbsOk ys →
    BigInt.cmpFromTop xs ys
      = (if limbsVal xs.reverse < limbsVal ys.reverse then -1
        else if limbsVal xs.reverse = limbsVal ys.reverse then 0 else 1) := by
  intro xs
  induction xs with
  | nil =>
    intro ys hlen _ _
    cases ys with
    | nil => simp [BigInt.cmpFromTop, limbsVal]
    | cons y ys => simp at hlen
  | cons x xs ih =>
    intro ys hlen hx hy
    cases ys with
    | nil => simp at hlen
    | cons y ys =>
      rw [limbsOk_cons] at hx hy
      have hlen2 : xs.length = ys.length := by simpa using hlen
      have ih2 := ih ys hlen2 hx.2 hy.2
      have hxr : LimbsOk xs.reverse := fun z hz => hx.2 z (List.mem_reverse.mp hz)
      have hyr : LimbsOk ys.reverse := fun z hz => hy.2 z (List.mem_reverse.mp hz)
      have bx := limbsVal_lt_pow _ hxr
      have by2 := limbsVal_lt_pow _ hyr
      have nx := limbsVal_nonneg _ hxr
      have ny := limbsVal_nonneg _ hyr
      rw [List.length_reverse] at bx by2
      rw [← hlen2] at by2
      have hP := base_pow_pos xs.length
      simp only [List.reverse_cons, limbsVal_append, List.length_reverse, limbsVal, mul_zero,
        add_zero, ← hlen2]
      unfold BigInt.cmpFromTop
      generalize BASE ^ xs.length = P at bx by2 hP
      generalize limbsVal xs.reverse = a at bx nx ih2
      generalize limbsVal ys.reverse = b at by2 ny ih2
      by_cases hxy : x = y
      · subst hxy
        simp only [ne_eq, not_true_eq_false, if_false, ih2]
        by_cases h1 : a < b
        · have : a + P * x < b + P * x := by omega
          simp [h1, this]
        · by_cases h2 : a = b
          · simp [h2]
          · have h3 : ¬ (a + P * x < b + P * x) := by omega
            have h4 : ¬ (a + P * x = b + P * x) := by omega
            simp [h1, h2, h3, h4]
      · simp only [ne_eq, hxy, not_false_eq_true, if_true]
        by_cases hlt : x < y
        · have : a + P * x < b + P * y := by nlinarith
          simp [hlt, this]
        · have hgt : y < x := by omega
          have h3 : b + P * y < a + P * x := by nlinarith
          have h4 : ¬ (a + P * x < b + P * y) := by omega
          have h5 : ¬ (a + P * x = b + P * y) := by omega
          simp [hlt, h4, h5]

theorem cmpAbs_spec (A B : BigInt) (hA : A.Canonical) (hB : B.Canonical) :
    BigInt.cmpAbs A B
      = (if limbsVal A.a < limbsVal B.a then -1
        else if limbsVal A.a = limbsVal B.a then 0 else 1) := by
  obtain ⟨_, a2, a3, _⟩ := hA
  obtain ⟨_, b2, b3, _⟩ := hB
  unfold BigInt.cmpAbs
  have ua := limbsVal_lt_pow _ a2
  have ub := limbsVal_lt_pow _ b2
  have na := limbsVal_nonneg _ a2
  have nb := limbsVal_nonneg _ b2
  by_cases hlen : A.a.length = B.a.length
  · simp only [hlen, ne_eq, not_true_eq_false, if_false]
    have har : LimbsOk A.a.reverse := fun z hz => a2 z (List.mem_reverse.mp hz)
    have hbr : LimbsOk B.a.reverse := fun z hz => b2 z (List.mem_reverse.mp hz)
    have := cmpFromTop_spec A.a.reverse B.a.reverse (by simp [hlen]) har hbr
    simpa using this
  · simp only [ne_eq, hlen, not_false_eq_true, if_true]
    by_cases hlt : A.a.length < B.a.length
    · have hne : B.a ≠ [] := by
        intro he
        rw [he] at hlt
        simp at hlt
      have lb := limbsVal_ge_pow _ b2 b3 hne
      have hpow : BASE ^ A.a.length ≤ BASE ^ (B.a.length - 1) :=
        pow_le_pow_right₀ (by decide) (by omega)
      have : limbsVal A.a < limbsVal B.a := by omega
      simp [hlt, this]
    · have hgt : B.a.length < A.a.length := by omega
      have hne : A.a ≠ [] := by
        intro he
        rw [he] at hgt
        simp at hgt
      have la := limbsVal_ge_pow _ a2 a3 hne
      have hpow : BASE ^ B.a.length ≤ BASE ^ (A.a.length - 1) :=
        pow_le_pow_right₀ (by decide) (by omega)
      have h1 : ¬ (limbsVal A.a < limbsVal B.a) := by omega
      have h2 : ¬ (limbsVal A.a = limbsVal B.a) := by omega
      simp [hlt, h1, h2]

theorem cmpAbs_length (A B : BigInt) (h : BigInt.cmpAbs A B > 0)
    : B.a.length ≤ A.a.length := by
  unfold BigInt.cmpAbs at h
  by_cases hlen : A.a.length = B.a.length
  · omega
  · simp only [ne_eq, hlen, not_false_eq_true, if_true] at h
    by_cases hlt : A.a.length < B.a.length
    · simp [hlt] at h
    · omega

theorem subStep_spec (cur : Int) (h0 : -BASE ≤ cur) (h1 : cur < BASE) :
    (0 ≤ (BigInt.subStep cur).1 ∧ (BigInt.subStep cur).1 < BASE) ∧
      (BigInt.subStep cur).1 = cur + BASE * (if (BigInt.subStep cur).2 then 1 else 0) := by
  unfold BigInt.subStep
  by_cases hc : cur < 0
  · have hw : wrapI32 (cur + BASE) = cur + BASE := wrapI32_of_limb (by omega) (by omega)
    simp only [hc, decide_True, if_true, hw]
    omega
  · have hw : wrapI32 cur = cur := wrapI32_of_limb (by omega) h1
    simp only [hc, decide_False, if_false, hw, Bool.false_eq_true]
    omega

theorem subLoop_spec : ∀ (xs ys : List Int) (carry : Bool), LimbsOk xs → LimbsOk ys →
    ys.length ≤ xs.length →
    ∃ b : Int, (b = 0 ∨ b = 1) ∧
      limbsVal (BigInt.subLoop xs ys carry)
        = limbsVal xs - limbsVal ys - (if carry then 1 else 0) + b * BASE ^ xs.length ∧
      LimbsOk (BigInt.subLoop xs ys carry) ∧
      (BigInt.subLoop xs ys carry).length = xs.length := by
  intro xs
  induction xs with
  | nil =>
    intro ys carry _ _ hlen
    have hys : ys = [] := List.length_eq_zero.mp (by simpa using hlen)
    subst hys
    cases carry
    · exact ⟨0, Or.inl rfl, by simp [BigInt.subLoop, limbsVal], by simp [BigInt.subLoop, LimbsOk],
        by simp [BigInt.subLoop]⟩
    · exact ⟨1, Or.inr rfl, by simp [BigInt.subLoop, limbsVal], by simp [BigInt.subLoop, LimbsOk],
        by simp [BigInt.subLoop]⟩
  | cons x xs ih =>
    intro ys carry hx hy hlen
    have hx' := limbsOk_cons.mp hx
    have hB : (0 : Int) < BASE := by decide
    cases ys with
    | nil =>
      cases carry
      · exact ⟨0, Or.inl rfl, by simp [BigInt.subLoop, limbsVal], by simpa [BigInt.subLoop] using hx,
          by simp [BigInt.subLoop]⟩
      · have hc0 : -BASE ≤ x - 0 - 1 := by have := hx'.1.1; omega
        have hc1 : x - 0 - 1 < BASE := by have := hx'.1.2; omega
        obtain ⟨s1, s2⟩ := subStep_spec _ hc0 hc1
        obtain ⟨b, hb, i1, i2, i3⟩ := ih [] (BigInt.subStep (x - 0 - 1)).2 hx'.2
          (by simp [LimbsOk]) (by simp)
        refine ⟨b, hb, ?_, ?_, ?_⟩
        · simp only [BigInt.subLoop, if_true, limbsVal, i1, List.length_cons, pow_succ]
          rw [s2]
          ring
        · simp only [BigInt.subLoop, if_true]
          exact limbsOk_cons.mpr ⟨s1, i2⟩
        · simp only [BigInt.subLoop, if_true, List.length_cons, i3]
    | cons y ys =>
      have hy' := limbsOk_cons.mp hy
      have hc0 : -BASE ≤ x - y - (if carry then 1 else 0) := by
        have := hx'.1.1
        have := hy'.1.2
        cases carry <;> simp <;> omega
      have hc1 : x - y - (if carry then 1 else 0) < BASE := by
        have := hx'.1.2
        have := hy'.1.1
        cases carry <;> simp <;> omega
      obtain ⟨s1, s2⟩ := subStep_spec _ hc0 hc1
      obtain ⟨b, hb, i1, i2, i3⟩ :=
        ih ys (BigInt.subStep (x - y - (if carry then 1 else 0))).2 hx'.2 hy'.2
          (by simpa using hlen)
      refine ⟨b, hb, ?_, ?_, ?_⟩
      · simp only [BigInt.subLoop, limbsVal, i1, List.length_cons, pow_succ]
        rw [s2]
        ring
      · simp only [BigInt.subLoop]
        exact limbsOk_cons.mpr ⟨s1, i2⟩
      · simp [BigInt.subLoop, i3]

theorem subAbs_spec (A B : BigInt) (hA : LimbsOk A.a) (hB : LimbsOk B.a)
    (hlen : B.a.length ≤ A.a.length) (hlt : limbsVal B.a < limbsVal A.a) (s : Int)
    (hs : s = -1 ∨ s = 1) :
    (BigInt.withSign (A.subAbs B) s).Canonical ∧
      (BigInt.withSign (A.subAbs B) s).toInt = s * (limbsVal A.a - limbsVal B.a) := by
  obtain ⟨b, hb, i1, i2, i3⟩ := subLoop_spec A.a B.a false hA hB hlen
  have ub := limbsVal_lt_pow _ i2
  have nb := limbsVal_nonneg _ i2
  have ua := limbsVal_lt_pow _ hA
  have nB := limbsVal_nonneg _ hB
  rw [i3] at ub
  have hb0 : b = 0 := by
    rcases hb with h | h
    · exact h
    · rw [h] at i1
      simp only [Bool.false_eq_true, if_false, one_mul] at i1
      omega
  rw [hb0] at i1
  simp only [Bool.false_eq_true, if_false, zero_mul, add_zero, sub_zero] at i1
  obtain ⟨t1, t2, t3⟩ := trimLimbs_spec _ i2
  have hne : BigInt.trimLimbs (BigInt.subLoop A.a B.a false) ≠ [] := by
    intro he
    rw [he] at t2
    simp only [limbsVal] at t2
    omega
  have hs0 : s ≠ 0 := by omega
  have hw : BigInt.withSign (A.subAbs B) s
      = ⟨s, BigInt.trimLimbs (BigInt.subLoop A.a B.a false)⟩ := by
    simp [BigInt.withSign, BigInt.subAbs, BigInt.trim, BigInt.isZero, hs0]
  rw [hw]
  refine ⟨⟨?_, t1, t3, ?_⟩, ?_⟩
  · rcases hs with h | h <;> simp [h]
  · simp [hs0, hne]
  · simp only [BigInt.toInt, t2, i1]

theorem add_spec (A B : BigInt) (hA : A.Canonical) (hB : B.Canonical) :
    (A.add B).Canonical ∧ (A.add B).toInt = A.toInt + B.toInt := by
  by_cases hs : A.sign = B.sign ∨ A.sign = 0 ∨ B.sign = 0
  · exact add_spec_same_sign A B hA hB hs
  · have hcmp := cmpAbs_spec A B hA hB
    have a1 := hA.1
    have b1 := hB.1
    have a2 := hA.2.1
    have b2 := hB.2.1
    have hza : A.sign ≠ 0 := fun h => hs (Or.inr (Or.inl h))
    have hzb : B.sign ≠ 0 := fun h => hs (Or.inr (Or.inr h))
    have hne : A.sign ≠ B.sign := fun h => hs (Or.inl h)
    have hopp : B.sign = -A.sign := by omega
    have hza2 : A.isZero = false := by simp [BigInt.isZero, hza]
    have hzb2 : B.isZero = false := by simp [BigInt.isZero, hzb]
    unfold BigInt.add
    simp only [hza2, hzb2, hne, if_false, Bool.false_eq_true]
    by_cases h1 : limbsVal A.a < limbsVal B.a
    · have hc : BigInt.cmpAbs A B = -1 := by rw [hcmp]; simp [h1]
      have hc2 : BigInt.cmpAbs B A > 0 := by
        rw [cmpAbs_spec B A hB hA]
        have h3 : ¬ (limbsVal B.a < limbsVal A.a) := by omega
        have h4 : ¬ (limbsVal B.a = limbsVal A.a) := by omega
        simp [h3, h4]
      have hlen := cmpAbs_length B A hc2
      obtain ⟨r1, r2⟩ := subAbs_spec B A b2 a2 hlen h1 B.sign (by omega)
      have e1 : ¬ ((-1 : Int) = 0) := by decide
      have e2 : ¬ ((-1 : Int) > 0) := by decide
      simp only [hc, e1, e2, if_false]
      refine ⟨r1, ?_⟩
      rw [r2]
      unfold BigInt.toInt
      rw [hopp]
      ring
    · by_cases h2 : limbsVal A.a = limbsVal B.a
      · have hc : BigInt.cmpAbs A B = 0 := by rw [hcmp]; simp [h2]
        simp only [hc, if_true]
        refine ⟨by decide, ?_⟩
        unfold BigInt.toInt
        rw [hopp, h2]
        have : (BigInt.ofInt64 0).sign * limbsVal (BigInt.ofInt64 0).a = 0 := by decide
        rw [this]
        ring
      · have hc : BigInt.cmpAbs A B = 1 := by rw [hcmp]; simp [h1, h2]
        have hlen := cmpAbs_length A B (by rw [hc]; decide)
        obtain ⟨r1, r2⟩ := subAbs_spec A B a2 b2 hlen (by omega) A.sign (by omega)
        have e1 : ¬ ((1 : Int) = 0) := by decide
        have e2 : (1 : Int) > 0 := by decide
        simp only [hc, e1, e2, if_false, if_true]
        refine ⟨r1, ?_⟩
        rw [r2]
        unfold BigInt.toInt
        rw [hopp]
        ring

theorem neg_spec (A : BigInt) (hA : A.Canonical) :
    A.neg.Canonical ∧ A.neg.toInt = -A.toInt := by
  obtain ⟨a1, a2, a3, a4⟩ := hA
  unfold BigInt.neg
  by_cases hz : A.sign = 0
  · have : A.isZero = true := by simp [BigInt.isZero, hz]
    simp only [this, Bool.not_true, Bool.false_eq_true, if_false]
    exact ⟨⟨a1, a2, a3, a4⟩, by simp [BigInt.toInt, hz]⟩
  · have : A.isZero = false := by simp [BigInt.isZero, hz]
    simp only [this, Bool.not_false, if_true]
    refine ⟨⟨?_, a2, a3, ?_⟩, ?_⟩
    · show -A.sign = -1 ∨ -A.sign = 0 ∨ -A.sign = 1
      omega
    · show -A.sign = 0 ↔ A.a = []
      rw [← a4]
      omega
    · simp [BigInt.toInt]

theorem sub_spec (A B : BigInt) (hA : A.Canonical) (hB : B.Canonical) :
    (A.sub B).Canonical ∧ (A.sub B).toInt = A.toInt - B.toInt := by
  obtain ⟨n1, n2⟩ := neg_spec B hB
  obtain ⟨r1, r2⟩ := add_spec A B.neg hA n1
  unfold BigInt.sub
  exact ⟨r1, by rw [r2, n2]; ring⟩

/-- C15: for all canonical a and b, `a + b` is the canonical BigInt of value
value(a) + value(b) and `a - b` the canonical BigInt of value
value(a) - value(b), whatever the signs and the numbers of limbs. -/
theorem add_sub_value (A B : BigInt) (hA : A.Canonical) (hB : B.Canonical) :
    ((A.add B).Canonical ∧ (A.add B).toInt = A.toInt + B.toInt) ∧
      ((A.sub B).Canonical ∧ (A.sub B).toInt = A.toInt - B.toInt) :=
  ⟨add_spec A B hA hB, sub_spec A B hA hB⟩

/-- Witness of C15: 10^18 plus -1, a borrow through two limbs that drops the
top limb. -/
theorem add_sub_value_witness :
    ((BigInt.mk 1 [0, 0, 1]).Canonical ∧ (BigInt.mk (-1) [1]).Canonical) ∧
      ((BigInt.mk 1 [0, 0, 1]).add (BigInt.mk (-1) [1])).toInt
        = (BigInt.mk 1 [0, 0, 1]).toInt + (BigInt.mk (-1) [1]).toInt :=
  ⟨by decide, (add_sub_value _ _ (by decide) (by decide)).1.2⟩

theorem mulLoop_limbsOk (mm : Int) : ∀ (l : List Int) (carry : Int), 0 ≤ carry →
    LimbsOk (BigInt.mulLoop mm l carry) := by
  intro l
  induction l with
  | nil =>
    intro carry hc
    exact (pushLimbs_spec carry.toNat carry hc (Nat.le_refl _)).2.1
  | cons x t ih =>
    intro carry _
    simp only [BigInt.mulLoop]
    have hcur : 0 ≤ toU64 (carry + toU64 (toU64 x * mm)) := by unfold toU64; omega
    generalize toU64 (carry + toU64 (toU64 x * mm)) = cur at hcur
    have hm0 : 0 ≤ cur % BASE := by unfold BASE; omega
    have hm1 : cur % BASE < BASE := by unfold BASE; omega
    have hd0 : 0 ≤ cur / BASE := by unfold BASE; omega
    rw [wrapI32_of_limb hm0 hm1]
    exact limbsOk_cons.mpr ⟨⟨hm0, hm1⟩, ih _ hd0⟩

theorem mulInt_canonical (A : BigInt) (m : Int) (hA : A.Canonical) : (A.mulInt m).Canonical := by
  obtain ⟨hs, hl, _, _⟩ := hA
  unfold BigInt.mulInt
  by_cases hm : m = 0
  · simp [hm, BigInt.ofInt64, canonical_zero]
  by_cases hz : A.sign = 0
  · have hz2 : A.isZero = true := by simp [BigInt.isZero, hz]
    simp [hz2, BigInt.ofInt64, canonical_zero]
  · have hz2 : A.isZero = false := by simp [BigInt.isZero, hz]
    simp only [hm, hz2, hz, false_or, if_false, Bool.false_eq_true]
    have hsign : (if m < 0 then -A.sign else A.sign) = -1 ∨
        (if m < 0 then -A.sign else A.sign) = 1 := by
      by_cases hn : m < 0 <;> simp only [hn, if_true, if_false] <;> omega
    exact (trim_spec _ _ hsign (mulLoop_limbsOk _ A.a 0 (Int.le_refl 0))).1

theorem divLoop_limbsOk (dd : Int) (h0 : 0 < dd) (h1 : dd < 18446744073709551616) :
    ∀ (l : List Int) (rem : Int), LimbsOk l → 0 ≤ rem → rem < dd →
      LimbsOk (BigInt.divLoop dd l rem).1 ∧
        0 ≤ (BigInt.divLoop dd l rem).2 ∧ (BigInt.divLoop dd l rem).2 < dd := by
  intro l
  induction l with
  | nil =>
    intro rem _ hr0 hr1
    simp only [BigInt.divLoop]
    exact ⟨by simp [LimbsOk], hr0, hr1⟩
  | cons x t ih =>
    intro rem h hr0 hr1
    rw [limbsOk_cons] at h
    have hx0 := h.1.1
    have hx1 := h.1.2
    have hB : toU64 BASE = 1000000000 := by decide
    have hcur0 : 0 ≤ toU64 (toU64 x + toU64 (rem * toU64 BASE)) := by unfold toU64; omega
    have hcur1 : toU64 (toU64 x + toU64 (rem * toU64 BASE)) < dd * BASE := by
      rw [hB]
      unfold toU64
      unfold BASE at hx1 ⊢
      omega
    simp only [BigInt.divLoop]
    generalize toU64 (toU64 x + toU64 (rem * toU64 BASE)) = cur at hcur0 hcur1
    have hq0 : 0 ≤ cur / dd := Int.ediv_nonneg hcur0 (by omega)
    have hq1 : cur / dd < BASE := by
      apply Int.ediv_lt_of_lt_mul h0
      rw [Int.mul_comm]
      exact hcur1
    have hr0' : 0 ≤ cur % dd := Int.emod_nonneg _ (by omega)
    have hr1' : cur % dd < dd := Int.emod_lt_of_pos _ h0
    obtain ⟨i1, i2, i3⟩ := ih (cur % dd) h.2 hr0' hr1'
    rw [wrapI32_of_limb hq0 hq1]
    exact ⟨limbsOk_cons.mpr ⟨⟨hq0, hq1⟩, i1⟩, i2, i3⟩

theorem divIntRem_ok (A : BigInt) (d : Int) (hd : 0 < d) :
    A.divIntRem d = Except.ok
      (if A.isZero then (BigInt.ofInt64 0, 0)
       else (BigInt.trim ⟨A.sign, (BigInt.divLoop (toU64 d) A.a.reverse 0).1.reverse⟩,
             wrapI64 (BigInt.divLoop (toU64 d) A.a.reverse 0).2)) := by
  unfold BigInt.divIntRem
  have h : d > 0 := hd
  by_cases hz : A.isZero = true
  · simp [h, hz]
  · simp [h, hz]

theorem divInt_ok (A : BigInt) (d : Int) (hd : 0 < d) :
    A.divInt d = Except.ok
      (if A.isZero then BigInt.ofInt64 0
       else BigInt.trim ⟨A.sign, (BigInt.divLoop (toU64 d) A.a.reverse 0).1.reverse⟩) := by
  unfold BigInt.divInt
  rw [divIntRem_ok A d hd]
  by_cases hz : A.isZero = true
  · simp [hz, Except.map]
  · simp [hz, Except.map]

theorem divInt_canonical (A : BigInt) (d : Int) (hA : A.Canonical) (hd : 0 < d)
    (hd1 : d ≤ 9223372036854775807) :
    ∃ q, A.divInt d = Except.ok q ∧ q.Canonical := by
  rw [divInt_ok A d hd]
  refine ⟨_, rfl, ?_⟩
  obtain ⟨hs, hl, _, _⟩ := hA
  by_cases hz : A.sign = 0
  · have hz2 : A.isZero = true := by simp [BigInt.isZero, hz]
    simp only [hz2, if_true]
    decide
  · have hz2 : A.isZero = false := by simp [BigInt.isZero, hz]
    simp only [hz2, Bool.false_eq_true, if_false]
    have hu : toU64 d = d := by unfold toU64; omega
    have hr : LimbsOk A.a.reverse := fun x hx => hl x (List.mem_reverse.mp hx)
    obtain ⟨i1, _, _⟩ := divLoop_limbsOk (toU64 d) (by omega) (by omega) A.a.reverse 0 hr
      (Int.le_refl 0) (by omega)
    have hq : LimbsOk (BigInt.divLoop (toU64 d) A.a.reverse 0).1.reverse :=
      fun x hx => i1 x (List.mem_reverse.mp hx)
    exact (trim_spec A.sign _ (by omega) hq).1

theorem limbs_unique : ∀ (l m : List Int), LimbsOk l → LimbsOk m → l.getLast? ≠ some 0 →
    m.getLast? ≠ some 0 → limbsVal l = limbsVal m → l = m := by
  intro l
  induction l with
  | nil =>
    intro m _ hm _ tm hv
    by_contra hne
    have := limbsVal_pos m hm tm (fun h => hne h.symm)
    simp only [limbsVal] at hv
    omega
  | cons x t ih =>
    intro m hl hm tl tm hv
    cases m with
    | nil =>
      have := limbsVal_pos (x :: t) hl tl (List.cons_ne_nil _ _)
      simp only [limbsVal] at hv this
      omega
    | cons y u =>
      rw [limbsOk_cons] at hl hm
      simp only [limbsVal, BASE] at hv
      have hx0 := hl.1.1
      have hx1 := hl.1.2
      have hy0 := hm.1.1
      have hy1 := hm.1.2
      unfold BASE at hx1 hy1
      have hxy : x = y := by omega
      have hv2 : limbsVal t = limbsVal u := by omega
      have tt : t.getLast? ≠ some 0 := by
        cases t with
        | nil => simp
        | cons z t2 => rwa [List.getLast?_cons_cons] at tl
      have tu : u.getLast? ≠ some 0 := by
        cases u with
        | nil => simp
        | cons z u2 => rwa [List.getLast?_cons_cons] at tm
      rw [hxy, ih u hl.2 hm.2 tt tu hv2]

theorem canonical_unique (A B : BigInt) (hA : A.Canonical) (hB : B.Canonical)
    (hv : A.toInt = B.toInt) : A = B := by
  have sa := canonical_sign_toInt hA
  have sb := canonical_sign_toInt hB
  obtain ⟨a1, a2, a3, a4⟩ := hA
  obtain ⟨b1, b2, b3, b4⟩ := hB
  have hsign : A.sign = B.sign := by
    rcases a1 with h | h | h <;> rcases b1 with g | g | g <;>
      (have pa := sa
       have pb := sb
       rw [h] at pa
       rw [g] at pb
       norm_num at pa pb
       omega)
  have hlimbs : A.a = B.a := by
    by_cases hz : A.sign = 0
    · rw [a4.1 hz, b4.1 (by rw [← hsign]; exact hz)]
    · apply limbs_unique _ _ a2 b2 a3 b3
      unfold BigInt.toInt at hv
      rw [hsign] at hv
      have hzb : B.sign ≠ 0 := by rw [← hsign]; exact hz
      exact Int.eq_of_mul_eq_mul_left hzb hv
  cases A with
  | mk s l =>
    cases B with
    | mk s2 l2 =>
      simp only at hsign hlimbs
      rw [hsign, hlimbs]

theorem isZero_iff (A : BigInt) (hA : A.Canonical) : A.isZero = true ↔ A.toInt = 0 := by
  have sa := canonical_sign_toInt hA
  have a1 := hA.1
  unfold BigInt.isZero
  constructor
  · intro h
    exact sa.1 (by simpa using h)
  · intro h
    have : A.sign = 0 := by
      rcases a1 with g | g | g
      · have := sa.2.2 g; omega
      · exact g
      · have := sa.2.1 g; omega
    simp [this]

/-- C17: canonical form is kept by every BigInt operation. `BigInt(v)` is
canonical for every 64-bit v; on canonical inputs the results of unary minus,
`+`, `-`, `mulInt(m)` (every m), `divInt(d)` (every 64-bit d > 0, which
returns), `addInt(v)` (every 64-bit v) and `decodeInBase` (every `int` base)
are canonical; two canonical BigInts of the same value are equal, and
`isZero` holds exactly for the value 0. -/
theorem canonical_invariant :
    (∀ v : Int, -9223372036854775808 ≤ v → v ≤ 9223372036854775807 →
      (BigInt.ofInt64 v).Canonical) ∧
    (∀ A : BigInt, A.Canonical → A.neg.Canonical) ∧
    (∀ A B : BigInt, A.Canonical → B.Canonical → (A.add B).Canonical ∧ (A.sub B).Canonical) ∧
    (∀ (A : BigInt) (m : Int), A.Canonical → (A.mulInt m).Canonical) ∧
    (∀ (A : BigInt) (d : Int), A.Canonical → 0 < d → d ≤ 9223372036854775807 →
      ∃ q, A.divInt d = Except.ok q ∧ q.Canonical) ∧
    (∀ (A : BigInt) (v : Int), A.Canonical → -9223372036854775808 ≤ v →
      v ≤ 9223372036854775807 → (A.addInt v).Canonical) ∧
    (∀ (s : List Char) (base : Int), base ≤ 2147483647 → (decodeInBase s base).Canonical) ∧
    (∀ A B : BigInt, A.Canonical → B.Canonical → A.toInt = B.toInt → A = B) ∧
    (∀ A : BigInt, A.Canonical → (A.isZero = true ↔ A.toInt = 0)) := by
  refine ⟨?_, ?_, ?_, ?_, ?_, ?_, ?_, ?_, ?_⟩
  · intro v h0 h1
    exact (ofInt64_spec v h0 (by omega)).1
  · intro A hA
    exact (neg_spec A hA).1
  · intro A B hA hB
    exact ⟨(add_spec A B hA hB).1, (sub_spec A B hA hB).1⟩
  · intro A m hA
    exact mulInt_canonical A m hA
  · intro A d hA h0 h1
    exact divInt_canonical A d hA h0 h1
  · intro A v hA h0 h1
    exact (add_spec A _ hA (ofInt64_spec v h0 (by omega)).1).1
  · intro s base hb
    exact (decodeInBase_spec s base hb).1
  · intro A B hA hB hv
    exact canonical_unique A B hA hB hv
  · intro A hA
    exact isZero_iff A hA

/-- Witness of C17: a three-limb BigInt multiplied by 2^62 and divided by
10^11, beyond the range where the values are exact. -/
theorem canonical_invariant_witness :
    (BigInt.mk 1 [0, 0, 20]).Canonical ∧
      ((BigInt.mk 1 [0, 0, 20]).mulInt 4611686018427387904).Canonical ∧
      (∃ q, (BigInt.mk 1 [0, 0, 20]).divInt 100000000000 = Except.ok q ∧ q.Canonical) :=
  ⟨by decide, canonical_invariant.2.2.2.1 _ _ (by decide),
    canonical_invariant.2.2.2.2.1 _ _ (by decide) (by decide) (by decide)⟩

/-! ## Exact scalar division -/

theorem divLoop_length (dd : Int) : ∀ (l : List Int) (rem : Int),
    (BigInt.divLoop dd l rem).1.length = l.length := by
  intro l
  induction l with
  | nil => intro rem; rfl
  | cons x t ih =>
    intro rem
    simp only [BigInt.divLoop, List.length_cons, ih]

theorem divLoop_spec (dd : Int) (h0 : 0 < dd) (h1 : dd ≤ 18446744073) :
    ∀ (l : List Int) (rem : Int), LimbsOk l → 0 ≤ rem → rem < dd →
      limbsVal (BigInt.divLoop dd l rem).1.reverse * dd + (BigInt.divLoop dd l rem).2
        = rem * BASE ^ l.length + limbsVal l.reverse := by
  intro l
  induction l with
  | nil =>
    intro rem _ _ _
    simp [BigInt.divLoop, limbsVal]
  | cons x t ih =>
    intro rem h hr0 hr1
    rw [limbsOk_cons] at h
    have hx0 := h.1.1
    have hx1 := h.1.2
    have hcur : toU64 (toU64 x + toU64 (rem * toU64 BASE)) = x + rem * BASE := by
      have hB : toU64 BASE = BASE := by decide
      rw [hB]
      unfold toU64
      unfold BASE at hx1 ⊢
      omega
    have hc0 : 0 ≤ x + rem * BASE := by unfold BASE; omega
    have hc1 : x + rem * BASE < dd * BASE := by unfold BASE at hx1 ⊢; omega
    simp only [BigInt.divLoop, hcur]
    have hq0 : 0 ≤ (x + rem * BASE) / dd := Int.ediv_nonneg hc0 (by omega)
    have hq1 : (x + rem * BASE) / dd < BASE :=
      Int.ediv_lt_of_lt_mul h0 (by rw [Int.mul_comm BASE dd]; exact hc1)
    have hr0' : 0 ≤ (x + rem * BASE) % dd := Int.emod_nonneg _ (by omega)
    have hr1' : (x + rem * BASE) % dd < dd := Int.emod_lt_of_pos _ h0
    have ih2 := ih ((x + rem * BASE) % dd) h.2 hr0' hr1'
    have hlen := divLoop_length dd t ((x + rem * BASE) % dd)
    rw [wrapI32_of_limb hq0 hq1]
    simp only [List.reverse_cons, limbsVal_append, List.length_reverse, limbsVal, mul_zero,
      add_zero, hlen, List.length_cons, pow_succ]
    have key := Int.emod_add_ediv (x + rem * BASE) dd
    linear_combination ih2 + BASE ^ t.length * key

theorem divIntRem_spec (A : BigInt) (d : Int) (hA : A.Canonical) (hd0 : 0 < d)
    (hd1 : d ≤ 18446744073) :
    ∃ q r, A.divIntRem d = Except.ok (q, r) ∧ q.Canonical ∧
      q.toInt = A.sign * (limbsVal A.a / d) ∧ r = limbsVal A.a % d := by
  rw [divIntRem_ok A d hd0]
  obtain ⟨hs, hl, _, h4⟩ := hA
  by_cases hz : A.sign = 0
  · have hz2 : A.isZero = true := by simp [BigInt.isZero, hz]
    have hnil : A.a = [] := h4.1 hz
    simp only [hz2, if_true]
    refine ⟨_, _, rfl, by decide, ?_, ?_⟩
    · rw [hz, Int.zero_mul]
      rfl
    · rw [hnil]
      simp [limbsVal]
  · have hz2 : A.isZero = false := by simp [BigInt.isZero, hz]
    simp only [hz2, Bool.false_eq_true, if_false]
    refine ⟨_, _, rfl, ?_⟩
    have hu : toU64 d = d := by unfold toU64; omega
    rw [hu]
    have hr : LimbsOk A.a.reverse := fun x hx => hl x (List.mem_reverse.mp hx)
    obtain ⟨i1, i2, i3⟩ := divLoop_limbsOk d hd0 (by omega) A.a.reverse 0 hr
      (Int.le_refl 0) hd0
    have hspec := divLoop_spec d hd0 hd1 A.a.reverse 0 hr (Int.le_refl 0) hd0
    simp only [zero_mul, zero_add, List.reverse_reverse] at hspec
    have hq : LimbsOk (BigInt.divLoop d A.a.reverse 0).1.reverse :=
      fun x hx => i1 x (List.mem_reverse.mp hx)
    obtain ⟨t1, t2⟩ := trim_spec A.sign _ (by omega) hq
    generalize (BigInt.divLoop d A.a.reverse 0).2 = R at i2 i3 hspec
    generalize limbsVal (BigInt.divLoop d A.a.reverse 0).1.reverse = Q at t2 hspec
    have hdiv : limbsVal A.a / d = Q := by
      rw [← hspec]
      rw [Int.add_comm, Int.add_mul_ediv_right _ _ (by omega), Int.ediv_eq_zero_of_lt i2 i3]
      simp
    have hmod : limbsVal A.a % d = R := by
      rw [← hspec, Int.add_comm, Int.add_mul_emod_self, Int.emod_eq_of_lt i2 i3]
    refine ⟨t1, ?_, ?_⟩
    · rw [t2, hdiv]
    · rw [hmod]
      unfold wrapI64
      omega

theorem divInt_of_divIntRem {A : BigInt} {d : Int} {q : BigInt} {r : Int}
    (h : A.divIntRem d = Except.ok (q, r)) : A.divInt d = Except.ok q := by
  unfold BigInt.divInt
  rw [h]
  rfl

theorem divInt_exact (A : BigInt) (d : Int) (hA : A.Canonical) (hd0 : 0 < d)
    (hd1 : d ≤ 18446744073) (hdvd : d ∣ A.toInt) :
    ∃ q, A.divIntRem d = Except.ok (q, 0) ∧ q.Canonical ∧ q.toInt * d = A.toInt := by
  obtain ⟨q, r, h1, h2, h3, h4⟩ := divIntRem_spec A d hA hd0 hd1
  have hs := hA.1
  have hdl : d ∣ limbsVal A.a := by
    unfold BigInt.toInt at hdvd
    rcases hs with h | h | h
    · rw [h] at hdvd
      have : d ∣ -(-1 * limbsVal A.a) := (Int.dvd_neg).mpr hdvd
      simpa using this
    · have hnil : A.a = [] := hA.2.2.2.1 h
      rw [hnil]
      simp [limbsVal]
    · rw [h] at hdvd
      simpa using hdvd
  have hr : r = 0 := by
    rw [h4]
    exact Int.emod_eq_zero_of_dvd hdl
  rw [hr] at h1
  refine ⟨q, h1, h2, ?_⟩
  rw [h3]
  unfold BigInt.toInt
  rw [Int.mul_assoc, Int.ediv_mul_cancel hdl]

/-! ## The Lagrange coefficients computed by the inner loop -/

theorem coeffLoop_eq (i : Nat) (xi : Int) : ∀ (ps : List Point) (j : Nat) (nd : Int × Int),
    coeffLoop i xi j ps nd
      = (wrapProd nd.1 ((if j ≤ i then ps.eraseIdx (i - j) else ps).map (fun p => -p.x)),
         wrapProd nd.2 ((if j ≤ i then ps.eraseIdx (i - j) else ps).map (fun p => xi - p.x))) := by
  intro ps
  induction ps with
  | nil =>
    intro j nd
    by_cases h : j ≤ i <;> simp [coeffLoop, wrapProd, h]
  | cons p ps ih =>
    intro j nd
    unfold coeffLoop
    by_cases hj : j = i
    · subst hj
      simp only [if_true, ih, Nat.le_refl, Nat.sub_self, List.eraseIdx_cons_zero]
      have : ¬ (j + 1 ≤ j) := by omega
      simp only [this, if_false]
    · simp only [hj, if_false, ih]
      by_cases hlt : j ≤ i
      · have h1 : j + 1 ≤ i := by omega
        have h2 : i - j = (i - (j + 1)) + 1 := by omega
        simp only [hlt, h1, if_true]
        rw [h2, List.eraseIdx_cons_succ]
        simp [wrapProd]
      · have h1 : ¬ (j + 1 ≤ i) := by omega
        simp only [hlt, h1, if_false]
        simp [wrapProd]

theorem wrapI64_of_small {v : Int} (h : |v| ≤ 9223372036854775807) : wrapI64 v = v := by
  have := abs_le.mp h
  unfold wrapI64
  omega

theorem wrapProd_exact (B : Int) (hB : B ≤ 9223372036854775807) :
    ∀ (fs : List Int) (a : Int), (∀ p ∈ fs.scanl (fun acc f => acc * f) a, |p| ≤ B) →
      wrapProd a fs = fs.foldl (fun acc f => acc * f) a ∧
        |fs.foldl (fun acc f => acc * f) a| ≤ B := by
  intro fs
  induction fs with
  | nil =>
    intro a h
    exact ⟨rfl, h a (by simp)⟩
  | cons f fs ih =>
    intro a h
    rw [List.scanl_cons] at h
    have htail : ∀ p ∈ fs.scanl (fun acc f => acc * f) (a * f), |p| ≤ B :=
      fun p hp => h p (List.mem_append_right _ hp)
    have hhead : |a * f| ≤ B := by
      apply htail
      cases fs <;> simp [List.scanl]
    obtain ⟨i1, i2⟩ := ih (a * f) htail
    have hstep : wrapI64 (a * wrapI64 f) = a * f := by
      by_cases ha : a = 0
      · subst ha
        simp [wrapI64_zero]
      · have h1 : 1 ≤ |a| := Int.one_le_abs ha
        have h2 : |f| ≤ |a * f| := by
          rw [abs_mul]
          have := abs_nonneg f
          nlinarith
        rw [wrapI64_of_small (v := f) (by omega)]
        exact wrapI64_of_small (by omega)
    refine ⟨?_, i2⟩
    show wrapProd (wrapI64 (a * wrapI64 f)) fs = _
    rw [hstep, i1]
    rfl

theorem map_eraseIdx {α β : Type} (f : α → β) : ∀ (l : List α) (i : Nat),
    (l.eraseIdx i).map f = (l.map f).eraseIdx i := by
  intro l
  induction l with
  | nil => intro i; rfl
  | cons x t ih =>
    intro i
    cases i with
    | zero => rfl
    | succ i => simp [ih]

theorem coeffLoop_top (pts : List Point) (i : Nat) (xi : Int)
    (hxi : xi = (pts.map Point.x).getD i 0) :
    coeffLoop i xi 0 pts (1, 1)
      = (wrapProd 1 (numFactors (pts.map Point.x) i),
         wrapProd 1 (denFactors (pts.map Point.x) i)) := by
  rw [coeffLoop_eq]
  simp only [Nat.zero_le, if_true, Nat.sub_zero, numFactors, denFactors, ← hxi,
    ← map_eraseIdx, List.map_map]
  rfl

theorem coeffLoop_exact (pts : List Point) (i : Nat) (xi : Int) (B : Int)
    (hB : B ≤ 9223372036854775807) (hxi : xi = (pts.map Point.x).getD i 0)
    (hn : ∀ q ∈ partialProducts (numFactors (pts.map Point.x) i), |q| ≤ B)
    (hd : ∀ q ∈ partialProducts (denFactors (pts.map Point.x) i), |q| ≤ B) :
    coeffLoop i xi 0 pts (1, 1)
      = (prodList (numFactors (pts.map Point.x) i), prodList (denFactors (pts.map Point.x) i)) ∧
      |prodList (numFactors (pts.map Point.x) i)| ≤ B ∧
      |prodList (denFactors (pts.map Point.x) i)| ≤ B := by
  obtain ⟨n1, n2⟩ := wrapProd_exact B hB _ 1 hn
  obtain ⟨d1, d2⟩ := wrapProd_exact B hB _ 1 hd
  rw [coeffLoop_top pts i xi hxi, n1, d1]
  exact ⟨rfl, n2, d2⟩

theorem foldl_mul_ne_zero : ∀ (fs : List Int) (a : Int), a ≠ 0 → (∀ f ∈ fs, f ≠ 0) →
    fs.foldl (fun acc f => acc * f) a ≠ 0 := by
  intro fs
  induction fs with
  | nil => intro a ha _; exact ha
  | cons f fs ih =>
    intro a ha h
    apply ih
    · exact Int.mul_ne_zero ha (h f (List.mem_cons_self _ _))
    · exact fun g hg => h g (List.mem_cons_of_mem _ hg)

theorem denFactors_ne_zero (xs : List Int) (i : Nat) (hi : i < xs.length) (hnd : xs.Nodup) :
    prodList (denFactors xs i) ≠ 0 := by
  apply foldl_mul_ne_zero _ _ (by decide)
  intro f hf
  unfold denFactors at hf
  rw [List.mem_map] at hf
  obtain ⟨x, hx, rfl⟩ := hf
  rw [List.mem_eraseIdx_iff_getElem?] at hx
  obtain ⟨j, hji, hj⟩ := hx
  have hjlt : j < xs.length := by
    rcases Nat.lt_or_ge j xs.length with h | h
    · exact h
    · rw [List.getElem?_eq_none h] at hj
      cases hj
  have hne : xs[i] ≠ xs[j] := by
    intro he
    exact hji ((List.Nodup.getElem_inj_iff hnd).mp he).symm
  have hget : xs.getD i 0 = xs[i] := by
    simp [List.getD, List.getElem?_eq_getElem hi]
  have hxj : x = xs[j] := by
    rw [List.getElem?_eq_getElem hjlt] at hj
    exact (Option.some.inj hj).symm
  rw [hget, hxj]
  omega
/-! ## The terms and their sum -/

theorem termOf_of_termOfRem {y : BigInt} {num den : Int} {t : BigInt} {r : Int}
    (h : termOfRem y num den = Except.ok (t, r)) : termOf y num den = Except.ok t := by
  unfold termOfRem at h
  unfold termOf
  by_cases hd : den < 0
  · simp only [hd, if_true] at h ⊢
    exact divInt_of_divIntRem h
  · simp only [hd, if_false] at h ⊢
    exact divInt_of_divIntRem h

theorem termOfRem_exact (y : BigInt) (num den : Int) (hy : y.Canonical)
    (hn : |num| ≤ 18446744073) (hd : |den| ≤ 18446744073) (hd0 : den ≠ 0)
    (hdvd : den ∣ y.toInt * num) :
    ∃ t, termOfRem y num den = Except.ok (t, 0) ∧ t.Canonical ∧
      t.toInt = y.toInt * num / den := by
  have hn' := abs_le.mp hn
  have hd' := abs_le.mp hd
  obtain ⟨m1, m2⟩ := mulInt_spec y num hy hn'.1 hn'.2
  unfold termOfRem
  by_cases hneg : den < 0
  · simp only [hneg, if_true]
    obtain ⟨k1, k2⟩ := mulInt_spec (y.mulInt num) (-1) m1 (by decide) (by decide)
    have hw : wrapI64 (-den) = -den := by unfold wrapI64; omega
    rw [hw]
    have hdv : -den ∣ ((y.mulInt num).mulInt (-1)).toInt := by
      rw [k2, m2]
      have : -den ∣ y.toInt * num := (Int.neg_dvd).mpr hdvd
      exact Dvd.dvd.mul_right this (-1)
    obtain ⟨q, q1, q2, q3⟩ := divInt_exact _ (-den) k1 (by omega) (by omega) hdv
    refine ⟨q, q1, q2, ?_⟩
    apply (Int.ediv_eq_of_eq_mul_left hd0 _).symm
    rw [k2, m2] at q3
    linear_combination q3
  · simp only [hneg, if_false]
    have hdv : den ∣ (y.mulInt num).toInt := by rw [m2]; exact hdvd
    obtain ⟨q, q1, q2, q3⟩ := divInt_exact _ den m1 (by omega) (by omega) hdv
    refine ⟨q, q1, q2, ?_⟩
    apply (Int.ediv_eq_of_eq_mul_left hd0 _).symm
    rw [m2] at q3
    exact q3.symm

theorem outerLoop_sum (pts : List Point) (g : Nat → Int) :
    ∀ (ps : List Point) (i : Nat) (ans : BigInt), ans.Canonical →
      (∀ n p, ps[n]? = some p →
        ∃ t, termOf p.y (coeffLoop (i + n) p.x 0 pts (1, 1)).1
            (coeffLoop (i + n) p.x 0 pts (1, 1)).2 = Except.ok t ∧
          t.Canonical ∧ t.toInt = g (i + n)) →
      ∃ r, outerLoop pts i ps ans = Except.ok r ∧ r.Canonical ∧
        r.toInt = ans.toInt + ((List.range' i ps.length).map g).sum := by
  intro ps
  induction ps with
  | nil =>
    intro i ans ha _
    exact ⟨ans, rfl, ha, by simp⟩
  | cons p ps ih =>
    intro i ans ha h
    obtain ⟨t, t1, t2, t3⟩ := h 0 p (by simp)
    simp only [Nat.add_zero] at t1 t3
    obtain ⟨a1, a2⟩ := add_spec ans t ha t2
    have hrest : ∀ n q, ps[n]? = some q →
        ∃ t, termOf q.y (coeffLoop (i + 1 + n) q.x 0 pts (1, 1)).1
            (coeffLoop (i + 1 + n) q.x 0 pts (1, 1)).2 = Except.ok t ∧
          t.Canonical ∧ t.toInt = g (i + 1 + n) := by
      intro n q hq
      have := h (n + 1) q (by simpa using hq)
      have e : i + (n + 1) = i + 1 + n := by omega
      rw [e] at this
      exact this
    obtain ⟨r, r1, r2, r3⟩ := ih (i + 1) (ans.add t) a1 hrest
    refine ⟨r, ?_, r2, ?_⟩
    · unfold outerLoop
      simp only [t1]
      exact r1
    · rw [r3, a2, t3, List.length_cons, List.range'_succ, List.map_cons, List.sum_cons]
      ring

theorem getD_map_of_getElem? {α : Type} (f : α → Int) (l : List α) (n : Nat) (p : α)
    (h : l[n]? = some p) : (l.map f).getD n 0 = f p := by
  simp [List.getD, List.getElem?_map, h]

theorem interpolate_lagrange_core (points : List Point) (k : Int)
    (hlen : (points.length : Int) = k) (hnd : (points.map Point.x).Nodup)
    (hy : ∀ p ∈ points, p.y.Canonical)
    (hpart : ∀ i, i < points.length →
      (∀ q ∈ partialProducts (numFactors ((sortByX points).map Point.x) i),
        |q| ≤ 10000000000) ∧
      (∀ q ∈ partialProducts (denFactors ((sortByX points).map Point.x) i),
        |q| ≤ 10000000000))
    (hdiv : ∀ i, i < points.length →
      prodList (denFactors ((sortByX points).map Point.x) i) ∣
        ((sortByX points).map (fun p => p.y.toInt)).getD i 0 *
          prodList (numFactors ((sortByX points).map Point.x) i)) :
    ∃ r, interpolate_constant_term points k = Except.ok r ∧ r.Canonical ∧
      r.toInt = lagrangeAtZero (sortByX points) ∧
      ∀ i, i < points.length → ∀ p, (sortByX points)[i]? = some p →
        ∃ t, termOfRem p.y (coeffLoop i p.x 0 (sortByX points) (1, 1)).1
          (coeffLoop i p.x 0 (sortByX points) (1, 1)).2 = Except.ok (t, 0) := by
  have hperm : (sortByX points).Perm points := List.perm_insertionSort _ _
  have hslen : (sortByX points).length = points.length := hperm.length_eq
  have hsnd : ((sortByX points).map Point.x).Nodup := (hperm.map Point.x).nodup_iff.mpr hnd
  have hterm : ∀ n p, (sortByX points)[n]? = some p →
      ∃ t, termOfRem p.y (coeffLoop n p.x 0 (sortByX points) (1, 1)).1
          (coeffLoop n p.x 0 (sortByX points) (1, 1)).2 = Except.ok (t, 0) ∧
        t.Canonical ∧ t.toInt = lagrangeTerm (sortByX points) n := by
    intro n p hp
    have hn : n < points.length := by
      rw [← hslen]
      rcases Nat.lt_or_ge n (sortByX points).length with h | h
      · exact h
      · rw [List.getElem?_eq_none h] at hp
        cases hp
    have hmem : p ∈ points := hperm.subset (List.getElem?_mem hp)
    have hx : p.x = ((sortByX points).map Point.x).getD n 0 :=
      (getD_map_of_getElem? Point.x _ n p hp).symm
    have hyv : ((sortByX points).map (fun p => p.y.toInt)).getD n 0 = p.y.toInt :=
      getD_map_of_getElem? (fun p => p.y.toInt) _ n p hp
    obtain ⟨c1, c2, c3⟩ := coeffLoop_exact (sortByX points) n p.x 10000000000 (by decide) hx
      (hpart n hn).1 (hpart n hn).2
    have hdne := denFactors_ne_zero _ n (by rw [List.length_map, hslen]; exact hn) hsnd
    have hdv := hdiv n hn
    rw [hyv] at hdv
    rw [c1]
    obtain ⟨t, t1, t2, t3⟩ := termOfRem_exact p.y _ _ (hy p hmem) (by omega) (by omega) hdne hdv
    refine ⟨t, t1, t2, ?_⟩
    rw [t3]
    unfold lagrangeTerm
    rw [hyv]
  have hsum := outerLoop_sum (sortByX points) (lagrangeTerm (sortByX points)) (sortByX points) 0
    (BigInt.ofInt64 0) (by decide) (by
      intro n p hp
      obtain ⟨t, t1, t2, t3⟩ := hterm n p hp
      rw [Nat.zero_add]
      exact ⟨t, termOf_of_termOfRem t1, t2, t3⟩)
  obtain ⟨r, r1, r2, r3⟩ := hsum
  refine ⟨r, ?_, r2, ?_, ?_⟩
  · unfold interpolate_constant_term
    rw [resize_of_le _ k (by omega) (by omega)]
    have htake : (sortByX points).take k.toNat = sortByX points := by
      apply List.take_of_length_le
      omega
    rw [htake]
    exact r1
  · rw [r3]
    unfold lagrangeAtZero
    rw [List.range_eq_range']
    have : (BigInt.ofInt64 0).toInt = 0 := by decide
    rw [this]
    simp
  · intro i _ p hp
    obtain ⟨t, t1, _, _⟩ := hterm i p hp
    exact ⟨t, t1⟩

/-! ## The points (1, y_1), ..., (k, y_k) -/

set_option maxRecDepth 100000 in
theorem indexed_facts : ∀ k, k < 14 → ∀ i, i < k →
    (∀ q ∈ partialProducts (numFactors (xsUpTo k) i), -10000000000 ≤ q ∧ q ≤ 10000000000) ∧
    (∀ q ∈ partialProducts (denFactors (xsUpTo k) i), -10000000000 ≤ q ∧ q ≤ 10000000000) ∧
    prodList (denFactors (xsUpTo k) i) ∣ prodList (numFactors (xsUpTo k) i) ∧
    prodList (numFactors (xsUpTo k) i) / prodList (denFactors (xsUpTo k) i)
      = (-1) ^ i * (Nat.choose k (i + 1) : Int) := by
  decide

set_option maxRecDepth 100000 in
theorem binomialSum_monomial : ∀ k, k < 14 → 0 < k → ∀ m, m < k →
    binomialSum ((List.range k).map (fun (i : Nat) => ((i : Int) + 1) ^ m)) = if m = 0 then 1 else 0 := by
  decide

theorem enumFrom_map_x : ∀ (ys : List BigInt) (n : Nat),
    ((ys.enumFrom n).map (fun iy => (⟨(iy.1 : Int) + 1, iy.2⟩ : Point))).map Point.x
      = (List.range' (n + 1) ys.length).map (fun (m : Nat) => (m : Int)) := by
  intro ys
  induction ys with
  | nil => intro n; rfl
  | cons y ys ih =>
    intro n
    simp only [List.enumFrom_cons, List.map_cons, List.length_cons, List.range'_succ, ih]
    simp

theorem enumFrom_map_y : ∀ (ys : List BigInt) (n : Nat),
    ((ys.enumFrom n).map (fun iy => (⟨(iy.1 : Int) + 1, iy.2⟩ : Point))).map Point.y = ys := by
  intro ys
  induction ys with
  | nil => intro n; rfl
  | cons y ys ih =>
    intro n
    simp only [List.enumFrom_cons, List.map_cons, ih]

theorem indexedPoints_x (ys : List BigInt) :
    (indexedPoints ys).map Point.x = xsUpTo ys.length := by
  unfold indexedPoints xsUpTo List.enum
  exact enumFrom_map_x ys 0

theorem indexedPoints_y (ys : List BigInt) : (indexedPoints ys).map Point.y = ys := by
  unfold indexedPoints List.enum
  exact enumFrom_map_y ys 0

theorem indexedPoints_length (ys : List BigInt) : (indexedPoints ys).length = ys.length := by
  have := congrArg List.length (indexedPoints_y ys)
  simpa using this

theorem indexedPoints_ascending (ys : List BigInt) :
    (indexedPoints ys).Pairwise (fun p q => p.x < q.x) := by
  have h : ((indexedPoints ys).map Point.x).Pairwise (fun a b => a < b) := by
    rw [indexedPoints_x]
    unfold xsUpTo
    rw [List.pairwise_map]
    exact List.Pairwise.imp (fun h => by exact_mod_cast h) (List.pairwise_lt_range' 1 ys.length)
  rw [List.pairwise_map] at h
  exact h

theorem sortByX_of_perm_ascending {points S : List Point} (hp : points.Perm S)
    (hS : S.Pairwise (fun p q => p.x < q.x)) : sortByX points = S := by
  have hsort : (sortByX points).Sorted Point.le := List.sorted_insertionSort _ _
  have hperm : (sortByX points).Perm (S ++ []) := by
    rw [List.append_nil]
    exact (List.perm_insertionSort _ _).trans hp
  have htake := sorted_take_eq S [] _ hsort hperm hS (by simp)
  have hlen : (sortByX points).length = S.length := by
    rw [hperm.length_eq, List.append_nil]
  rw [← htake]
  exact (List.take_of_length_le (by omega)).symm

theorem sum_map_congr {f g : Nat → Int} : ∀ (l : List Nat), (∀ i ∈ l, f i = g i) →
    (l.map f).sum = (l.map g).sum := by
  intro l
  induction l with
  | nil => intro _; rfl
  | cons a l ih =>
    intro h
    rw [List.map_cons, List.map_cons, List.sum_cons, List.sum_cons, h a (List.mem_cons_self _ _),
      ih (fun i hi => h i (List.mem_cons_of_mem _ hi))]

theorem lagrangeAtZero_indexed (ys : List BigInt) (hk : ys.length < 14) :
    lagrangeAtZero (indexedPoints ys) = binomialSum (ys.map BigInt.toInt) := by
  unfold lagrangeAtZero binomialSum
  rw [indexedPoints_length, List.length_map]
  apply sum_map_congr
  intro i hi
  have hi' : i < ys.length := List.mem_range.mp hi
  obtain ⟨_, _, f3, f4⟩ := indexed_facts ys.length hk i hi'
  unfold lagrangeTerm
  rw [indexedPoints_x]
  have hy : (indexedPoints ys).map (fun p => p.y.toInt) = ys.map BigInt.toInt := by
    have := congrArg (List.map BigInt.toInt) (indexedPoints_y ys)
    rw [List.map_map] at this
    exact this
  rw [hy, Int.mul_ediv_assoc _ f3, f4]
  ring

theorem binomialSum_linear (c : Int) (f g : Nat → Int) (k : Nat) : ∀ n,
    ((List.range n).map (fun (i : Nat) => (-1) ^ i * (Nat.choose k (i + 1) : Int) * (c * f i + g i))).sum
      = c * ((List.range n).map (fun (i : Nat) => (-1) ^ i * (Nat.choose k (i + 1) : Int) * f i)).sum
        + ((List.range n).map (fun (i : Nat) => (-1) ^ i * (Nat.choose k (i + 1) : Int) * g i)).sum := by
  intro n
  induction n with
  | zero => simp
  | succ n ih =>
    simp only [List.range_succ, List.map_append, List.sum_append, List.map_cons, List.map_nil,
      List.sum_cons, List.sum_nil, ih]
    ring

theorem getD_map_range (f : Nat → Int) (k i : Nat) (hi : i < k) :
    ((List.range k).map f).getD i 0 = f i := by
  simp [List.getD, List.getElem?_map, List.getElem?_range hi]

theorem binomialSum_of_fun (f : Nat → Int) (k : Nat) :
    binomialSum ((List.range k).map f)
      = ((List.range k).map (fun (i : Nat) => (-1) ^ i * (Nat.choose k (i + 1) : Int) * f i)).sum := by
  unfold binomialSum
  rw [List.length_map, List.length_range]
  apply sum_map_congr
  intro i hi
  rw [getD_map_range f k i (List.mem_range.mp hi)]

theorem binomialSum_poly (k : Nat) (hk : k < 14) (hk0 : 0 < k) : ∀ (cs : List Int) (m : Nat),
    m + cs.length ≤ k →
    binomialSum ((List.range k).map (fun (i : Nat) => ((i : Int) + 1) ^ m * polyEval cs ((i : Int) + 1)))
      = if m = 0 then polyEval cs 0 else 0 := by
  intro cs
  induction cs with
  | nil =>
    intro m _
    rw [binomialSum_of_fun]
    simp [polyEval]
  | cons c cs ih =>
    intro m hm
    have hm' : m + 1 + cs.length ≤ k := by
      simp only [List.length_cons] at hm
      omega
    have ih2 := ih (m + 1) hm'
    have hmono := binomialSum_monomial k hk hk0 m (by simp only [List.length_cons] at hm; omega)
    rw [binomialSum_of_fun] at ih2 hmono ⊢
    have hfun : (fun i : Nat => (-1 : Int) ^ i * (Nat.choose k (i + 1) : Int) *
          (((i : Int) + 1) ^ m * polyEval (c :: cs) ((i : Int) + 1)))
        = (fun i : Nat => (-1 : Int) ^ i * (Nat.choose k (i + 1) : Int) *
          (c * ((i : Int) + 1) ^ m + ((i : Int) + 1) ^ (m + 1) * polyEval cs ((i : Int) + 1))) := by
      funext i
      simp only [polyEval, pow_succ]
      ring
    rw [hfun, binomialSum_linear, hmono, ih2]
    by_cases h0 : m = 0
    · simp [h0, polyEval]
    · simp [h0]

theorem binomialSum_polyEval (ys : List Int) (hk : ys.length < 14) (hk0 : 0 < ys.length)
    (cs : List Int) (hcs : cs.length ≤ ys.length)
    (hys : ∀ i, i < ys.length → ys.getD i 0 = polyEval cs ((i : Int) + 1)) :
    binomialSum ys = polyEval cs 0 := by
  have h := binomialSum_poly ys.length hk hk0 cs 0 (by omega)
  simp only [pow_zero, one_mul, if_true] at h
  rw [← h, binomialSum_of_fun]
  unfold binomialSum
  apply sum_map_congr
  intro i hi
  rw [hys i (List.mem_range.mp hi)]

theorem indexed_core (points : List Point) (ys : List BigInt) (hk : ys.length < 14)
    (hp : points.Perm (indexedPoints ys)) (hy : ∀ y ∈ ys, y.Canonical) :
    sortByX points = indexedPoints ys ∧
    ∃ r, interpolate_constant_term points ys.length = Except.ok r ∧ r.Canonical ∧
      r.toInt = binomialSum (ys.map BigInt.toInt) ∧
      ∀ i, i < ys.length → ∀ p, (indexedPoints ys)[i]? = some p →
        ∃ t, termOfRem p.y (coeffLoop i p.x 0 (indexedPoints ys) (1, 1)).1
          (coeffLoop i p.x 0 (indexedPoints ys) (1, 1)).2 = Except.ok (t, 0) := by
  have hsort := sortByX_of_perm_ascending hp (indexedPoints_ascending ys)
  have hlen : points.length = ys.length := by rw [hp.length_eq, indexedPoints_length]
  have hnd : (points.map Point.x).Nodup := by
    rw [(hp.map Point.x).nodup_iff, indexedPoints_x]
    have h : ((indexedPoints ys).map Point.x).Pairwise (fun a b => a < b) := by
      rw [List.pairwise_map]
      exact indexedPoints_ascending ys
    rw [indexedPoints_x] at h
    exact List.Pairwise.imp (fun h => Int.ne_of_lt h) h
  have hyp : ∀ p ∈ points, p.y.Canonical := by
    intro p hpm
    have hmem : p ∈ indexedPoints ys := hp.subset hpm
    have : p.y ∈ (indexedPoints ys).map Point.y := List.mem_map_of_mem _ hmem
    rw [indexedPoints_y] at this
    exact hy _ this
  have hcore := interpolate_lagrange_core points ys.length (by exact_mod_cast hlen) hnd hyp
    (by
      intro i hi
      rw [hsort, indexedPoints_x]
      obtain ⟨f1, f2, _, _⟩ := indexed_facts ys.length hk i (by omega)
      exact ⟨fun q hq => abs_le.mpr (f1 q hq), fun q hq => abs_le.mpr (f2 q hq)⟩)
    (by
      intro i hi
      rw [hsort, indexedPoints_x]
      obtain ⟨_, _, f3, _⟩ := indexed_facts ys.length hk i (by omega)
      exact Dvd.dvd.mul_left f3 _)
  obtain ⟨r, r1, r2, r3, r4⟩ := hcore
  refine ⟨hsort, r, r1, r2, ?_, ?_⟩
  · rw [r3, hsort]
    exact lagrangeAtZero_indexed ys hk
  · intro i hi p hpi
    rw [hsort] at r4
    exact r4 i (by omega) p hpi
/-! ## The Lagrange sum and the interpolating polynomial -/

theorem prod_map_range (g : Int → ℚ) : ∀ xs : List Int,
    (xs.map g).prod = ∏ j in Finset.range xs.length, g (xs.getD j 0) := by
  intro xs
  induction xs with
  | nil => simp
  | cons x xs ih =>
    rw [List.map_cons, List.prod_cons, List.length_cons, Finset.prod_range_succ', ih]
    simp only [List.getD_cons_succ, List.getD_cons_zero]
    ring

theorem prod_map_eraseIdx (g : Int → ℚ) : ∀ (xs : List Int) (i : Nat),
    ((xs.eraseIdx i).map g).prod
      = ∏ j in Finset.range xs.length, if j = i then 1 else g (xs.getD j 0) := by
  intro xs
  induction xs with
  | nil => intro i; simp
  | cons x xs ih =>
    intro i
    cases i with
    | zero =>
      rw [List.eraseIdx_cons_zero, List.length_cons, Finset.prod_range_succ', prod_map_range]
      simp
    | succ i =>
      rw [List.eraseIdx_cons_succ, List.map_cons, List.prod_cons, List.length_cons,
        Finset.prod_range_succ', ih]
      simp only [List.getD_cons_succ, List.getD_cons_zero, Nat.add_right_cancel_iff]
      have h0 : ¬ (0 = i + 1) := by omega
      simp only [h0, if_false]
      ring

theorem prod_erase_range (f : Nat → ℚ) (n i : Nat) :
    ∏ j in (Finset.range n).erase i, f j
      = ∏ j in Finset.range n, if j = i then 1 else f j := by
  rw [← Finset.prod_erase (Finset.range n) (show (if i = i then (1 : ℚ) else f i) = 1 by simp)]
  apply Finset.prod_congr rfl
  intro j hj
  have : j ≠ i := (Finset.mem_erase.mp hj).1
  simp [this]

theorem prodList_cast (g : Int → Int) (xs : List Int) (i : Nat) :
    ((prodList ((xs.eraseIdx i).map g) : Int) : ℚ)
      = ∏ j in (Finset.range xs.length).erase i, ((g (xs.getD j 0) : Int) : ℚ) := by
  have h : prodList ((xs.eraseIdx i).map g) = ((xs.eraseIdx i).map g).prod := by
    unfold prodList
    rw [List.prod_eq_foldl]
  rw [h, Int.cast_list_prod, List.map_map, prod_erase_range,
    ← prod_map_eraseIdx (fun x => ((g x : Int) : ℚ))]
  rfl

theorem sum_map_range (f : Nat → Int) : ∀ n : Nat,
    ((((List.range n).map f).sum : Int) : ℚ) = ∑ i in Finset.range n, ((f i : Int) : ℚ) := by
  intro n
  induction n with
  | zero => simp
  | succ n ih =>
    rw [List.range_succ, List.map_append, List.sum_append, Finset.sum_range_succ, ← ih]
    simp

theorem eval_basis_zero (n i : Nat) (v : Nat → ℚ) :
    Polynomial.eval 0 (Lagrange.basis (Finset.range n) v i)
      = (∏ j in (Finset.range n).erase i, (-(v j))) / ∏ j in (Finset.range n).erase i, (v i - v j) := by
  unfold Lagrange.basis Lagrange.basisDivisor
  rw [Polynomial.eval_prod, ← Finset.prod_div_distrib]
  apply Finset.prod_congr rfl
  intro j _
  simp only [Polynomial.eval_mul, Polynomial.eval_C, Polynomial.eval_sub, Polynomial.eval_X]
  rw [zero_sub, div_eq_inv_mul]

theorem lagrangeAtZero_eq_eval (pts : List Point) (hnd : (pts.map Point.x).Nodup)
    (hdiv : ∀ i, i < pts.length →
      prodList (denFactors (pts.map Point.x) i) ∣
        (pts.map (fun p => p.y.toInt)).getD i 0 * prodList (numFactors (pts.map Point.x) i)) :
    ((lagrangeAtZero pts : Int) : ℚ)
      = Polynomial.eval 0 (Lagrange.interpolate (Finset.range pts.length)
          (fun (i : Nat) => (((pts.map Point.x).getD i 0 : Int) : ℚ))
          (fun (i : Nat) => (((pts.map (fun p => p.y.toInt)).getD i 0 : Int) : ℚ))) := by
  unfold lagrangeAtZero
  rw [sum_map_range, Lagrange.interpolate_apply, Polynomial.eval_finset_sum]
  apply Finset.sum_congr rfl
  intro i hi
  have hi2 : i < pts.length := Finset.mem_range.mp hi
  have hd0 : prodList (denFactors (pts.map Point.x) i) ≠ 0 :=
    denFactors_ne_zero _ i (by rw [List.length_map]; exact hi2) hnd
  unfold lagrangeTerm
  rw [Int.cast_div (hdiv i hi2) (by exact_mod_cast hd0), Polynomial.eval_mul, Polynomial.eval_C,
    eval_basis_zero, Int.cast_mul]
  unfold numFactors denFactors
  rw [prodList_cast, prodList_cast, List.length_map]
  simp only [Int.cast_neg, Int.cast_sub]
  rw [mul_div_assoc]

theorem nodes_injOn (pts : List Point) (hnd : (pts.map Point.x).Nodup) :
    Set.InjOn (fun (i : Nat) => (((pts.map Point.x).getD i 0 : Int) : ℚ))
      (Finset.range pts.length : Set Nat) := by
  intro i hi j hj hij
  have hi2 : i < (pts.map Point.x).length := by
    rw [List.length_map]; exact Finset.mem_range.mp (Finset.mem_coe.mp hi)
  have hj2 : j < (pts.map Point.x).length := by
    rw [List.length_map]; exact Finset.mem_range.mp (Finset.mem_coe.mp hj)
  have h : (pts.map Point.x).getD i 0 = (pts.map Point.x).getD j 0 := by
    simp only at hij
    exact_mod_cast hij
  have gi : (pts.map Point.x).getD i 0 = (pts.map Point.x)[i] := by
    simp [List.getD, List.getElem?_eq_getElem hi2]
  have gj : (pts.map Point.x).getD j 0 = (pts.map Point.x)[j] := by
    simp [List.getD, List.getElem?_eq_getElem hj2]
  rw [gi, gj] at h
  exact (List.Nodup.getElem_inj_iff hnd).mp h

theorem lagrange_poly_value (pts : List Point) (hnd : (pts.map Point.x).Nodup)
    (hdiv : ∀ i, i < pts.length →
      prodList (denFactors (pts.map Point.x) i) ∣
        (pts.map (fun p => p.y.toInt)).getD i 0 * prodList (numFactors (pts.map Point.x) i))
    (p : Polynomial ℚ) (hdeg : p.degree < (pts.length : WithBot Nat))
    (hp : ∀ i, i < pts.length →
      Polynomial.eval (((pts.map Point.x).getD i 0 : Int) : ℚ) p
        = (((pts.map (fun q => q.y.toInt)).getD i 0 : Int) : ℚ)) :
    Polynomial.eval 0 p = ((lagrangeAtZero pts : Int) : ℚ) := by
  rw [lagrangeAtZero_eq_eval pts hnd hdiv]
  congr 1
  apply Lagrange.eq_interpolate_of_eval_eq _ (nodes_injOn pts hnd)
  · rw [Finset.card_range]
    exact hdeg
  · intro i hi
    exact hp i (Finset.mem_range.mp hi)

theorem lagrange_poly_exists (pts : List Point) (hnd : (pts.map Point.x).Nodup) :
    ∃ p : Polynomial ℚ, p.degree < (pts.length : WithBot Nat) ∧
      ∀ i, i < pts.length →
        Polynomial.eval (((pts.map Point.x).getD i 0 : Int) : ℚ) p
          = (((pts.map (fun q => q.y.toInt)).getD i 0 : Int) : ℚ) := by
  refine ⟨Lagrange.interpolate (Finset.range pts.length)
      (fun (i : Nat) => (((pts.map Point.x).getD i 0 : Int) : ℚ))
      (fun (i : Nat) => (((pts.map (fun p => p.y.toInt)).getD i 0 : Int) : ℚ)), ?_, ?_⟩
  · have h := Lagrange.degree_interpolate_lt
      (fun (i : Nat) => (((pts.map (fun p => p.y.toInt)).getD i 0 : Int) : ℚ)) (nodes_injOn pts hnd)
    rw [Finset.card_range] at h
    exact h
  · intro i hi
    exact Lagrange.eval_interpolate_at_node _ (nodes_injOn pts hnd) (Finset.mem_range.mpr hi)

theorem lagrange_poly_mem (pts : List Point) (hnd : (pts.map Point.x).Nodup)
    (hdiv : ∀ i, i < pts.length →
      prodList (denFactors (pts.map Point.x) i) ∣
        (pts.map (fun p => p.y.toInt)).getD i 0 * prodList (numFactors (pts.map Point.x) i)) :
    (∃ p : Polynomial ℚ, p.degree < (pts.length : WithBot Nat) ∧
      (∀ pt ∈ pts, Polynomial.eval ((pt.x : Int) : ℚ) p = ((pt.y.toInt : Int) : ℚ)) ∧
      Polynomial.eval 0 p = ((lagrangeAtZero pts : Int) : ℚ)) ∧
    (∀ p : Polynomial ℚ, p.degree < (pts.length : WithBot Nat) →
      (∀ pt ∈ pts, Polynomial.eval ((pt.x : Int) : ℚ) p = ((pt.y.toInt : Int) : ℚ)) →
      Polynomial.eval 0 p = ((lagrangeAtZero pts : Int) : ℚ)) := by
  have huniq : ∀ p : Polynomial ℚ, p.degree < (pts.length : WithBot Nat) →
      (∀ pt ∈ pts, Polynomial.eval ((pt.x : Int) : ℚ) p = ((pt.y.toInt : Int) : ℚ)) →
      Polynomial.eval 0 p = ((lagrangeAtZero pts : Int) : ℚ) := by
    intro p hdeg hp
    apply lagrange_poly_value pts hnd hdiv p hdeg
    intro i hi
    have hget : pts[i]? = some pts[i] := List.getElem?_eq_getElem hi
    rw [getD_map_of_getElem? Point.x pts i _ hget,
      getD_map_of_getElem? (fun q => q.y.toInt) pts i _ hget]
    exact hp _ (List.getElem_mem hi)
  refine ⟨?_, huniq⟩
  obtain ⟨p, p1, p2⟩ := lagrange_poly_exists pts hnd
  have hmem : ∀ pt ∈ pts, Polynomial.eval ((pt.x : Int) : ℚ) p = ((pt.y.toInt : Int) : ℚ) := by
    intro pt hpt
    obtain ⟨i, hi, rfl⟩ := List.getElem_of_mem hpt
    have hget : pts[i]? = some pts[i] := List.getElem?_eq_getElem hi
    have h := p2 i hi
    rw [getD_map_of_getElem? Point.x pts i _ hget,
      getD_map_of_getElem? (fun q => q.y.toInt) pts i _ hget] at h
    exact h
  exact ⟨p, p1, hmem, huniq p p1 hmem⟩

theorem xsUpTo_getD (k i : Nat) (hi : i < k) : (xsUpTo k).getD i 0 = (i : Int) + 1 := by
  unfold xsUpTo
  simp [List.getD, List.getElem?_map, List.getElem?_range' _ _ hi]
  omega

theorem indexed_poly (ys : List BigInt) (hk : ys.length < 14) :
    (∃ p : Polynomial ℚ, p.degree < (ys.length : WithBot Nat) ∧
      (∀ i, i < ys.length →
        Polynomial.eval ((i : ℚ) + 1) p = (((ys.map BigInt.toInt).getD i 0 : Int) : ℚ)) ∧
      Polynomial.eval 0 p = ((binomialSum (ys.map BigInt.toInt) : Int) : ℚ)) ∧
    (∀ p : Polynomial ℚ, p.degree < (ys.length : WithBot Nat) →
      (∀ i, i < ys.length →
        Polynomial.eval ((i : ℚ) + 1) p = (((ys.map BigInt.toInt).getD i 0 : Int) : ℚ)) →
      Polynomial.eval 0 p = ((binomialSum (ys.map BigInt.toInt) : Int) : ℚ)) := by
  have hnd : ((indexedPoints ys).map Point.x).Nodup := by
    have h : ((indexedPoints ys).map Point.x).Pairwise (fun a b => a < b) := by
      rw [List.pairwise_map]
      exact indexedPoints_ascending ys
    exact List.Pairwise.imp (fun h => Int.ne_of_lt h) h
  have hyv : (indexedPoints ys).map (fun p => p.y.toInt) = ys.map BigInt.toInt := by
    have := congrArg (List.map BigInt.toInt) (indexedPoints_y ys)
    rw [List.map_map] at this
    exact this
  have hdiv : ∀ i, i < (indexedPoints ys).length →
      prodList (denFactors ((indexedPoints ys).map Point.x) i) ∣
        ((indexedPoints ys).map (fun p => p.y.toInt)).getD i 0 *
          prodList (numFactors ((indexedPoints ys).map Point.x) i) := by
    intro i hi
    rw [indexedPoints_length] at hi
    rw [indexedPoints_x]
    obtain ⟨_, _, f3, _⟩ := indexed_facts ys.length hk i hi
    exact Dvd.dvd.mul_left f3 _
  have hconv : ∀ p : Polynomial ℚ,
      (∀ i, i < ys.length →
        Polynomial.eval ((i : ℚ) + 1) p = (((ys.map BigInt.toInt).getD i 0 : Int) : ℚ)) ↔
      (∀ i, i < (indexedPoints ys).length →
        Polynomial.eval ((((indexedPoints ys).map Point.x).getD i 0 : Int) : ℚ) p
          = ((((indexedPoints ys).map (fun q => q.y.toInt)).getD i 0 : Int) : ℚ)) := by
    intro p
    rw [indexedPoints_length, indexedPoints_x, hyv]
    constructor
    · intro h i hi
      rw [xsUpTo_getD _ i hi]
      push_cast
      exact h i hi
    · intro h i hi
      have := h i hi
      rw [xsUpTo_getD _ i hi] at this
      push_cast at this
      exact this
  have hval := lagrangeAtZero_indexed ys hk
  have huniq : ∀ p : Polynomial ℚ, p.degree < (ys.length : WithBot Nat) →
      (∀ i, i < ys.length →
        Polynomial.eval ((i : ℚ) + 1) p = (((ys.map BigInt.toInt).getD i 0 : Int) : ℚ)) →
      Polynomial.eval 0 p = ((binomialSum (ys.map BigInt.toInt) : Int) : ℚ) := by
    intro p hdeg hp
    rw [← hval]
    apply lagrange_poly_value _ hnd hdiv p (by rw [indexedPoints_length]; exact hdeg)
    exact (hconv p).mp hp
  refine ⟨?_, huniq⟩
  obtain ⟨p, p1, p2⟩ := lagrange_poly_exists (indexedPoints ys) hnd
  rw [indexedPoints_length] at p1
  have p3 := (hconv p).mpr p2
  exact ⟨p, p1, p3, huniq p p1 p3⟩

/-! ## Interpolation: the claims on exact terms -/

/-- C18 (as stated, refuted): the points (1,1), (2,1), (4,1) lie on the constant
polynomial 1; for the first of them numerator and denominator are 8 and 3, 3
does not divide 1 * 8, and the division made by `divInt` leaves the remainder
2. -/
theorem term_division_inexact :
    [1, 2, 4].map (polyEval [1]) = [1, 1, 1] ∧
      coeffLoop 0 1 0 ([1, 2, 4].map (fun x => mkPoint x (polyEval [1] x))) (1, 1) = (8, 3) ∧
      ¬ ((3 : Int) ∣ (BigInt.ofInt64 1).toInt * 8) ∧
      termOfRem (BigInt.ofInt64 1) 8 3 = Except.ok (⟨1, [2]⟩, 2) := by
  decide

/-- C18 (amended): for 1 <= k <= 13 and the points (1, y_1), ..., (k, y_k) with
canonical y_i, given in any order, every per-point division of
`interpolate_constant_term` is exact: for each selected point the division
made by `divInt` returns with remainder 0. -/
theorem term_division_exact_indexed (ys : List BigInt) (points : List Point)
    (h1 : 1 ≤ ys.length) (h13 : ys.length ≤ 13) (hy : ∀ y ∈ ys, y.Canonical)
    (hp : points.Perm (indexedPoints ys)) :
    ∀ i, i < ys.length → ∀ p, (sortByX points)[i]? = some p →
      ∃ t, termOfRem p.y (coeffLoop i p.x 0 (sortByX points) (1, 1)).1
        (coeffLoop i p.x 0 (sortByX points) (1, 1)).2 = Except.ok (t, 0) := by
  obtain ⟨hsort, _, _, _, _, h⟩ := indexed_core points ys (by omega) hp hy
  rw [hsort]
  exact h

/-- Witness of C18 (amended): the three points (1,5), (2,8), (3,13) out of
order; the term of the point of x = 2. -/
theorem term_division_exact_indexed_witness :
    (1 ≤ [BigInt.ofInt64 5, BigInt.ofInt64 8, BigInt.ofInt64 13].length ∧
      [BigInt.ofInt64 5, BigInt.ofInt64 8, BigInt.ofInt64 13].length ≤ 13) ∧
    (∃ t, termOfRem (mkPoint 2 8).y
        (coeffLoop 1 (mkPoint 2 8).x 0 (sortByX [mkPoint 3 13, mkPoint 1 5, mkPoint 2 8]) (1, 1)).1
        (coeffLoop 1 (mkPoint 2 8).x 0 (sortByX [mkPoint 3 13, mkPoint 1 5, mkPoint 2 8]) (1, 1)).2
          = Except.ok (t, 0)) :=
  ⟨by decide,
    term_division_exact_indexed [BigInt.ofInt64 5, BigInt.ofInt64 8, BigInt.ofInt64 13]
      [mkPoint 3 13, mkPoint 1 5, mkPoint 2 8] (by decide) (by decide) (by decide) (by decide)
      1 (by decide) (mkPoint 2 8) (by decide)⟩

/-- C19: for 1 <= k <= 13 and canonical y_1, ..., y_k, on the points
(1, y_1), ..., (k, y_k) in any order `interpolate_constant_term` returns the
canonical BigInt of value sum over i = 1..k of (-1)^(i+1) * C(k, i) * y_i;
every denominator divides its y_i * numerator_i; for every polynomial of
degree less than k with integer coefficients that takes the values y_i at
i = 1..k, the result is its value at 0; and there is a polynomial of degree
less than k over the rationals that takes the values y_i at i = 1..k, and the
result is the value at 0 of every such polynomial. -/
theorem interpolate_indexed_binomial (ys : List BigInt) (points : List Point)
    (h1 : 1 ≤ ys.length) (h13 : ys.length ≤ 13) (hy : ∀ y ∈ ys, y.Canonical)
    (hp : points.Perm (indexedPoints ys)) :
    ∃ r, interpolate_constant_term points ys.length = Except.ok r ∧ r.Canonical ∧
      r.toInt = binomialSum (ys.map BigInt.toInt) ∧
      (∀ i, i < ys.length →
        prodList (denFactors (xsUpTo ys.length) i) ∣
          (ys.map BigInt.toInt).getD i 0 * prodList (numFactors (xsUpTo ys.length) i)) ∧
      (∀ cs : List Int, cs.length ≤ ys.length →
        (∀ i, i < ys.length → (ys.map BigInt.toInt).getD i 0 = polyEval cs ((i : Int) + 1)) →
        r.toInt = polyEval cs 0) ∧
      (∃ p : Polynomial ℚ, p.degree < (ys.length : WithBot Nat) ∧
        (∀ i, i < ys.length →
          Polynomial.eval ((i : ℚ) + 1) p = (((ys.map BigInt.toInt).getD i 0 : Int) : ℚ)) ∧
        Polynomial.eval 0 p = ((r.toInt : Int) : ℚ)) ∧
      (∀ p : Polynomial ℚ, p.degree < (ys.length : WithBot Nat) →
        (∀ i, i < ys.length →
          Polynomial.eval ((i : ℚ) + 1) p = (((ys.map BigInt.toInt).getD i 0 : Int) : ℚ)) →
        Polynomial.eval 0 p = ((r.toInt : Int) : ℚ)) := by
  obtain ⟨_, r, r1, r2, r3, _⟩ := indexed_core points ys (by omega) hp hy
  have hpoly := indexed_poly ys (by omega)
  rw [← r3] at hpoly
  refine ⟨r, r1, r2, r3, ?_, ?_, hpoly.1, hpoly.2⟩
  · intro i hi
    obtain ⟨_, _, f3, _⟩ := indexed_facts ys.length (by omega) i hi
    exact Dvd.dvd.mul_left f3 _
  · intro cs hcs hys
    rw [r3]
    apply binomialSum_polyEval _ (by rw [List.length_map]; omega)
      (by rw [List.length_map]; omega) cs (by rw [List.length_map]; exact hcs)
    intro i hi
    rw [List.length_map] at hi
    exact hys i hi

/-- Witness of C19: the points (1,5), (2,12), (3,23) of `2 + x + 2x^2`, out of
order. -/
theorem interpolate_indexed_binomial_witness :
    (1 ≤ [BigInt.ofInt64 5, BigInt.ofInt64 12, BigInt.ofInt64 23].length ∧
      [BigInt.ofInt64 5, BigInt.ofInt64 12, BigInt.ofInt64 23].length ≤ 13) ∧
    ∃ r, interpolate_constant_term [mkPoint 3 23, mkPoint 1 5, mkPoint 2 12]
        ([BigInt.ofInt64 5, BigInt.ofInt64 12, BigInt.ofInt64 23].length : Nat) = Except.ok r ∧
      r.toInt = polyEval [2, 1, 2] 0 := by
  refine ⟨by decide, ?_⟩
  obtain ⟨r, r1, _, _, _, r5, _⟩ :=
    interpolate_indexed_binomial [BigInt.ofInt64 5, BigInt.ofInt64 12, BigInt.ofInt64 23]
      [mkPoint 3 23, mkPoint 1 5, mkPoint 2 12] (by decide) (by decide) (by decide) (by decide)
  exact ⟨r, r1, r5 [2, 1, 2] (by decide) (by decide)⟩

/-- C20: for a list of exactly k points with pairwise distinct x and canonical
y, if, on the points in ascending x, every partial product formed for each
numerator_i and denominator_i is at most 10^10 in absolute value and each
denominator_i divides y_i * numerator_i, then `interpolate_constant_term`
returns the canonical BigInt whose value is the sum over i of
y_i * numerator_i / denominator_i; there is a polynomial of degree less than
the number of points over the rationals through all the points, and the
result is the value at 0 of every such polynomial. -/
theorem interpolate_lagrange_value (points : List Point) (k : Int)
    (hlen : (points.length : Int) = k) (hnd : (points.map Point.x).Nodup)
    (hy : ∀ p ∈ points, p.y.Canonical)
    (hpart : ∀ i, i < points.length →
      (∀ q ∈ partialProducts (numFactors ((sortByX points).map Point.x) i),
        |q| ≤ 10000000000) ∧
      (∀ q ∈ partialProducts (denFactors ((sortByX points).map Point.x) i),
        |q| ≤ 10000000000))
    (hdiv : ∀ i, i < points.length →
      prodList (denFactors ((sortByX points).map Point.x) i) ∣
        ((sortByX points).map (fun p => p.y.toInt)).getD i 0 *
          prodList (numFactors ((sortByX points).map Point.x) i)) :
    ∃ r, interpolate_constant_term points k = Except.ok r ∧ r.Canonical ∧
      r.toInt = lagrangeAtZero (sortByX points) ∧
      (∃ p : Polynomial ℚ, p.degree < (points.length : WithBot Nat) ∧
        (∀ pt ∈ points, Polynomial.eval ((pt.x : Int) : ℚ) p = ((pt.y.toInt : Int) : ℚ)) ∧
        Polynomial.eval 0 p = ((r.toInt : Int) : ℚ)) ∧
      (∀ p : Polynomial ℚ, p.degree < (points.length : WithBot Nat) →
        (∀ pt ∈ points, Polynomial.eval ((pt.x : Int) : ℚ) p = ((pt.y.toInt : Int) : ℚ)) →
        Polynomial.eval 0 p = ((r.toInt : Int) : ℚ)) := by
  obtain ⟨r, r1, r2, r3, _⟩ := interpolate_lagrange_core points k hlen hnd hy hpart hdiv
  have hperm : (sortByX points).Perm points := List.perm_insertionSort _ _
  have hslen : (sortByX points).length = points.length := hperm.length_eq
  have hsnd : ((sortByX points).map Point.x).Nodup := (hperm.map Point.x).nodup_iff.mpr hnd
  have hpoly := lagrange_poly_mem (sortByX points) hsnd
    (fun i hi => hdiv i (by rw [← hslen]; exact hi))
  rw [hslen, ← r3] at hpoly
  refine ⟨r, r1, r2, r3, ?_, ?_⟩
  · obtain ⟨p, p1, p2, p3⟩ := hpoly.1
    exact ⟨p, p1, fun pt hpt => p2 pt (hperm.mem_iff.mpr hpt), p3⟩
  · intro p hdeg hthrough
    exact hpoly.2 p hdeg (fun pt hpt => hthrough pt (hperm.mem_iff.mp hpt))

/-- Witness of C20: the points (2,3), (5,6) of `1 + x`, given in descending
x. -/
theorem interpolate_lagrange_value_witness :
    ((([mkPoint 5 6, mkPoint 2 3] : List Point).length : Int) = 2) ∧
    (([mkPoint 5 6, mkPoint 2 3] : List Point).map Point.x).Nodup ∧
    ∃ r, interpolate_constant_term [mkPoint 5 6, mkPoint 2 3] 2 = Except.ok r ∧ r.Canonical ∧
      r.toInt = lagrangeAtZero (sortByX [mkPoint 5 6, mkPoint 2 3]) := by
  refine ⟨by decide, by decide, ?_⟩
  obtain ⟨r, r1, r2, r3, _⟩ :=
    interpolate_lagrange_value [mkPoint 5 6, mkPoint 2 3] 2 (by decide) (by decide) (by decide)
      (by decide) (by decide)
  exact ⟨r, r1, r2, r3⟩

/-! ## Decimal rendering -/

theorem digitChar_eq : ∀ d, d < 10 → Nat.digitChar d = lowerDigits.getD d '0' := by
  decide

theorem encode_of_pos (n : Nat) (hn : n ≠ 0) :
    encode false n 10 = (Nat.digits 10 n).reverse.map (fun d => lowerDigits.getD d '0') := by
  simp [encode, hn]

theorem toDigitsCore_eq : ∀ (fuel n : Nat) (ds : List Char), n < fuel →
    Nat.toDigitsCore 10 fuel n ds = encode false n 10 ++ ds := by
  intro fuel
  induction fuel with
  | zero => intro n ds h; omega
  | succ fuel ih =>
    intro n ds h
    unfold Nat.toDigitsCore
    have hd := digitChar_eq (n % 10) (Nat.mod_lt _ (by decide))
    by_cases hq : n / 10 = 0
    · simp only [hq, if_true]
      have hlt : n < 10 := by omega
      by_cases h0 : n = 0
      · subst h0
        rfl
      · rw [encode_of_pos n h0, Nat.digits_of_lt 10 n h0 hlt]
        have : n % 10 = n := Nat.mod_eq_of_lt hlt
        rw [hd, this]
        rfl
    · simp only [hq, if_false]
      have hn0 : n ≠ 0 := by omega
      rw [ih (n / 10) _ (by omega), encode_of_pos _ hq, encode_of_pos n hn0,
        Nat.digits_def' (b := 10) (n := n) (by decide) (by omega), hd]
      simp

theorem repr_eq_encode (n : Nat) : Nat.repr n = String.mk (encode false n 10) := by
  unfold Nat.repr Nat.toDigits
  rw [toDigitsCore_eq (n + 1) n [] (by omega)]
  simp [List.asString]

theorem intToString_nonneg (v : Int) (h : 0 ≤ v) :
    BigInt.intToString v = String.mk (encode false v.toNat 10) := by
  unfold BigInt.intToString
  have : ¬ v < 0 := by omega
  simp only [this, if_false]
  exact repr_eq_encode _

theorem digits_length_le_nine (n : Nat) (h : n < 1000000000) : (Nat.digits 10 n).length ≤ 9 := by
  by_cases h0 : n = 0
  · simp [h0]
  · have h1 := Nat.base_pow_length_digits_le 10 n (by decide) h0
    have h2 : 10 ^ (Nat.digits 10 n).length < 10 ^ 10 := by omega
    have := (Nat.pow_lt_pow_iff_right (by decide : 1 < 10)).mp h2
    omega

theorem padBlock_data (v : Int) (h0 : 0 ≤ v) (h1 : v < BASE) :
    (BigInt.padBlock v).data
      = ((Nat.digits 10 v.toNat
          ++ List.replicate (9 - (Nat.digits 10 v.toNat).length) 0).reverse).map
            (fun d => lowerDigits.getD d '0') := by
  have hn : v.toNat < 1000000000 := by unfold BASE at h1; omega
  have hlen := digits_length_le_nine _ hn
  unfold BigInt.padBlock
  rw [intToString_nonneg v h0]
  generalize v.toNat = n at hn hlen
  by_cases hz : n = 0
  · subst hz
    have e0 : encode false 0 10 = ['0'] := rfl
    rw [e0, Nat.digits_zero]
    decide
  · rw [encode_of_pos n hz]
    simp only [String.length_mk, List.length_map, List.length_reverse]
    have hz0 : lowerDigits.getD 0 '0' = '0' := by decide
    by_cases hl : (Nat.digits 10 n).length < 9
    · simp only [hl, if_true, String.data_append, List.reverse_append, List.map_append,
        List.reverse_replicate, List.map_replicate, hz0]
    · have h9 : 9 - (Nat.digits 10 n).length = 0 := by omega
      simp only [hl, if_false, h9, List.replicate_zero, List.append_nil]

theorem padBlock_length (v : Int) (h0 : 0 ≤ v) (h1 : v < BASE) :
    (BigInt.padBlock v).length = 9 := by
  have hn : v.toNat < 1000000000 := by unfold BASE at h1; omega
  have hlen := digits_length_le_nine _ hn
  show (BigInt.padBlock v).data.length = 9
  rw [padBlock_data v h0 h1]
  simp only [List.length_map, List.length_reverse, List.length_append, List.length_replicate]
  omega

theorem block_append (N : Nat) (hN : 0 < N) (v : Int) (h0 : 0 ≤ v) (h1 : v < BASE) :
    (Nat.digits 10 N).reverse.map (fun d => lowerDigits.getD d '0') ++ (BigInt.padBlock v).data
      = (Nat.digits 10 (N * 1000000000 + v.toNat)).reverse.map
          (fun d => lowerDigits.getD d '0') := by
  have hn : v.toNat < 1000000000 := by unfold BASE at h1; omega
  have hlen := digits_length_le_nine _ hn
  rw [padBlock_data v h0 h1, ← List.map_append, ← List.reverse_append]
  have key := Nat.digits_append_zeroes_append_digits (b := 10)
    (k := 9 - (Nat.digits 10 v.toNat).length) (m := N) (n := v.toNat) (by decide) hN
  have hexp : (Nat.digits 10 v.toNat).length + (9 - (Nat.digits 10 v.toNat).length) = 9 := by
    omega
  rw [hexp] at key
  rw [key]
  have : v.toNat + 10 ^ 9 * N = N * 1000000000 + v.toNat := by ring
  rw [this]

theorem toString_loop : ∀ (rest : List Int) (N : Nat) (acc : String) (pre : List Char),
    0 < N → LimbsOk rest →
    acc.data = pre ++ (Nat.digits 10 N).reverse.map (fun d => lowerDigits.getD d '0') →
    (rest.foldl (fun acc v => acc ++ BigInt.padBlock v) acc).data
      = pre ++ (Nat.digits 10
          (rest.foldl (fun (M : Nat) (v : Int) => M * 1000000000 + v.toNat) N)).reverse.map
            (fun d => lowerDigits.getD d '0') := by
  intro rest
  induction rest with
  | nil => intro N acc pre _ _ h; exact h
  | cons v rest ih =>
    intro N acc pre hN hl h
    rw [limbsOk_cons] at hl
    simp only [List.foldl_cons]
    apply ih (N * 1000000000 + v.toNat) (acc ++ BigInt.padBlock v) pre (by omega) hl.2
    rw [String.data_append, h, List.append_assoc, block_append N hN v hl.1.1 hl.1.2]

theorem limbsVal_topdown : ∀ (rest : List Int) (N : Nat), LimbsOk rest →
    ((rest.foldl (fun (M : Nat) (v : Int) => M * 1000000000 + v.toNat) N : Nat) : Int)
      = (N : Int) * BASE ^ rest.length + limbsVal rest.reverse := by
  intro rest
  induction rest with
  | nil => intro N _; simp [limbsVal]
  | cons v rest ih =>
    intro N hl
    rw [limbsOk_cons] at hl
    simp only [List.foldl_cons, List.reverse_cons, limbsVal_append, List.length_reverse,
      List.length_cons, limbsVal, pow_succ]
    rw [ih _ hl.2]
    have hv : ((v.toNat : Nat) : Int) = v := Int.toNat_of_nonneg hl.1.1
    push_cast
    rw [hv]
    unfold BASE
    ring

theorem toString_eq_numeral (A : BigInt) (hA : A.Canonical) :
    A.toString = decimalNumeral A.toInt := by
  have hsgn := canonical_sign_toInt hA
  obtain ⟨a1, a2, a3, a4⟩ := hA
  unfold BigInt.toString decimalNumeral
  by_cases hz : A.sign = 0
  · simp only [hz, if_true, hsgn.1 hz]
    decide
  · simp only [hz, if_false]
    have hne : A.a ≠ [] := fun h => hz (a4.2 h)
    have hrev : A.a.reverse ≠ [] := by simpa using hne
    obtain ⟨top, rest, htr⟩ := List.exists_cons_of_ne_nil hrev
    have hl : A.a = rest.reverse ++ [top] := by
      have := congrArg List.reverse htr
      simpa using this
    have hlr : LimbsOk (top :: rest) := by
      rw [← htr]
      exact fun x hx => a2 x (List.mem_reverse.mp hx)
    rw [limbsOk_cons] at hlr
    have htop0 : top ≠ 0 := by
      intro h0
      apply a3
      rw [hl, List.getLast?_append]
      simp [h0]
    have htopN : 0 < top.toNat := by have := hlr.1.1; omega
    rw [htr]
    simp only
    have hval : limbsVal A.a
        = ((rest.foldl (fun (M : Nat) (v : Int) => M * 1000000000 + v.toNat) top.toNat : Nat)
          : Int) := by
      rw [limbsVal_topdown rest top.toNat hlr.2, hl, limbsVal_append, List.length_reverse]
      have hv : ((top.toNat : Nat) : Int) = top := Int.toNat_of_nonneg hlr.1.1
      rw [hv]
      simp only [limbsVal]
      ring
    have hpos : 0 < limbsVal A.a := limbsVal_pos _ a2 a3 hne
    have hloop := toString_loop rest top.toNat
      ((if A.sign < 0 then "-" else "") ++ BigInt.intToString top)
      (if A.sign < 0 then "-" else "").data htopN hlr.2 (by
        rw [String.data_append, intToString_nonneg top hlr.1.1,
          encode_of_pos _ (by omega)])
    apply String.ext
    rw [hloop, String.data_append]
    have habs : A.toInt.natAbs
        = rest.foldl (fun (M : Nat) (v : Int) => M * 1000000000 + v.toNat) top.toNat := by
      have h1 : (A.toInt.natAbs : Int) = limbsVal A.a := by
        unfold BigInt.toInt
        rcases a1 with h | h | h
        · rw [h]
          rw [Int.natCast_natAbs, abs_of_neg (by omega)]
          ring
        · exact absurd h hz
        · rw [h]
          rw [Int.natCast_natAbs, abs_of_pos (by omega)]
          ring
      rw [hval] at h1
      exact_mod_cast h1
    have hsign : (A.toInt < 0) ↔ (A.sign < 0) := by
      rcases a1 with h | h | h
      · have := hsgn.2.2 h
        constructor <;> intro _ <;> omega
      · exact absurd h hz
      · have := hsgn.2.1 h
        constructor <;> intro _ <;> omega
    have hn0 : A.toInt.natAbs ≠ 0 := by
      rw [habs]
      have : (0 : Int) < ((rest.foldl (fun (M : Nat) (v : Int) => M * 1000000000 + v.toNat)
          top.toNat : Nat) : Int) := by rw [← hval]; exact hpos
      omega
    rw [encode_of_pos _ hn0, habs]
    by_cases hneg : A.sign < 0
    · have := hsign.mpr hneg
      simp [hneg, this]
    · have : ¬ A.toInt < 0 := fun h => hneg (hsign.mp h)
      simp [hneg, this]

theorem digit_ne_minus : ∀ d, d < 10 → lowerDigits.getD d '0' ≠ '-' := by
  decide

theorem encode_no_minus (n : Nat) : ∀ c ∈ encode false n 10, c ≠ '-' := by
  intro c hc
  by_cases h0 : n = 0
  · subst h0
    have e0 : encode false 0 10 = ['0'] := rfl
    rw [e0] at hc
    have : c = '0' := by simpa using hc
    rw [this]
    decide
  · rw [encode_of_pos n h0, List.mem_map] at hc
    obtain ⟨d, hd, rfl⟩ := hc
    exact digit_ne_minus d (Nat.digits_lt_base (by decide) (List.mem_reverse.mp hd))

theorem positional_encode (n : Nat) :
    positional 10 (validDigits 10 (encode false n 10)) = n := by
  by_cases h0 : n = 0
  · subst h0
    have e0 : encode false 0 10 = ['0'] := rfl
    rw [e0]
    decide
  · have h := validDigits_encode false n 10 (by decide) (by decide) h0
    have hp := positional_reverse 10 (Nat.digits 10 n)
    simp only [Nat.cast_ofNat] at h hp
    rw [h, hp, Nat.ofDigits_digits]

theorem readDecimal_numeral (v : Int) : readDecimal (decimalNumeral v) = v := by
  unfold readDecimal decimalNumeral
  have hpe := positional_encode v.natAbs
  by_cases hneg : v < 0
  · simp only [hneg, if_true, String.data_append]
    have hc : countsIn 10 '-' = false := by decide
    have hv : validDigits 10 (['-'] ++ encode false v.natAbs 10)
        = validDigits 10 (encode false v.natAbs 10) := by
      unfold validDigits
      rw [List.singleton_append, List.filter_cons_of_neg (by simp [hc])]
    rw [hv, hpe]
    simp only [List.singleton_append, List.head?_cons, if_true]
    omega
  · simp only [hneg, if_false, String.data_append]
    rw [List.nil_append, hpe]
    have hhead : (encode false v.natAbs 10).head? ≠ some '-' := by
      intro hh
      have hmem : '-' ∈ encode false v.natAbs 10 := by
        cases hl : encode false v.natAbs 10 with
        | nil => rw [hl] at hh; simp at hh
        | cons c t =>
          rw [hl] at hh
          simp only [List.head?_cons, Option.some.injEq] at hh
          rw [hh]
          exact List.mem_cons_self _ _
      exact encode_no_minus _ _ hmem rfl
    simp only [hhead, if_false]
    omega

/-- C11: for every canonical BigInt a, `toString(a)` is the standard decimal
numeral of value(a): "0" for zero, otherwise "-" exactly for a negative value
followed by the decimal digits of the absolute value with no leading zero;
every limb below the most significant one is rendered as exactly 9 characters;
reading the string back as a decimal integer gives value(a); and this holds
for the BigInt decoded from any 50-character string in base 36. -/
theorem toString_decimal (A : BigInt) (hA : A.Canonical) :
    A.toString = decimalNumeral A.toInt ∧
    (A.toInt = 0 → A.toString = "0") ∧
    (∀ x ∈ A.a, (BigInt.padBlock x).length = 9) ∧
    readDecimal A.toString = A.toInt ∧
    (∀ s : List Char, s.length = 50 →
      (decodeInBase s 36).toString = decimalNumeral (decodeInBase s 36).toInt ∧
      readDecimal (decodeInBase s 36).toString = (decodeInBase s 36).toInt) := by
  have hmain := toString_eq_numeral A hA
  refine ⟨hmain, ?_, ?_, ?_, ?_⟩
  · intro h0
    rw [hmain, h0]
    decide
  · intro x hx
    exact padBlock_length x (hA.2.1 x hx).1 (hA.2.1 x hx).2
  · rw [hmain]
    exact readDecimal_numeral _
  · intro s _
    have hc := (decodeInBase_spec s 36 (by decide)).1
    have h := toString_eq_numeral _ hc
    refine ⟨h, ?_⟩
    rw [h]
    exact readDecimal_numeral _

/-- Witness of C11: the negative three-limb BigInt -12000000000000000005. -/
theorem toString_decimal_witness :
    (BigInt.mk (-1) [5, 0, 12]).Canonical ∧
      (BigInt.mk (-1) [5, 0, 12]).toString = "-12000000000000000005" ∧
      (BigInt.mk (-1) [5, 0, 12]).toString = decimalNumeral (BigInt.mk (-1) [5, 0, 12]).toInt :=
  ⟨by decide, by decide, (toString_decimal _ (by decide)).1⟩

end Shamir
